import Mathlib

/-!
Shallow embedding of a minimal Git-like version-control client
(object store, staging index, commit graph, pack builder, remote push
protocol) together with proofs of the specification claims.

Python `bytes` values are modelled as `List Nat` (each element a byte value);
Python `str` values are likewise modelled as `List Nat` of character code
points (all strings handled by the program are ASCII, so `encode`/`decode`
are the identity in the model).  zlib compression is modelled by abstract
`compress`/`decompress` parameters; theorems that need it assume
`decompress (compress x) = x`, and witnesses instantiate both with the
identity function.
-/

namespace Git

/-- Byte strings and (ASCII) character strings are lists of naturals. -/
abbrev Bytes := List Nat

/-- Code points of a Lean string literal, used to write ASCII constants. -/
def asc (s : String) : Bytes := s.data.map Char.toNat

/-- Lowercase hex digit (as a code point) of a value below 16. -/
def hexDigit (n : Nat) : Nat := if n < 10 then 48 + n else 87 + n

/-- Model of Python `bytes.hex()`: two lowercase hex digits per byte. -/
def bytesToHex (b : Bytes) : Bytes :=
  (b.map fun x => [hexDigit (x / 16 % 16), hexDigit (x % 16)]).flatten

/-- Big-endian byte encoding of `n` in `k` bytes (low-order bytes last). -/
def beBytes : Nat → Nat → Bytes
  | 0, _ => []
  | k + 1, n => n / 256 ^ k % 256 :: beBytes k n

/-- Big-endian value of a byte string. -/
def beVal (b : Bytes) : Nat := b.foldl (fun a x => a * 256 + x) 0

/-- Decimal digit characters of a natural number (fuel-structural so that
the kernel can evaluate it); `decDigits` below instantiates the fuel. -/
def decDigitsAux : Nat → Nat → List Nat
  | 0, _ => []
  | fuel + 1, n =>
    if n < 10 then [48 + n]
    else decDigitsAux fuel (n / 10) ++ [48 + n % 10]

/-- Decimal digit characters of a natural number, as Python `str(n)`. -/
def decDigits (n : Nat) : List Nat := decDigitsAux (n + 1) n

/-- Split a list into chunks (fuel-structural). -/
def chunksOfAux : Nat → Nat → List α → List (List α)
  | 0, _, _ => []
  | _, _, [] => []
  | fuel + 1, n, l => l.take n :: chunksOfAux fuel n (l.drop n)

/-- Split a list into chunks of `n` elements (last chunk possibly short). -/
def chunksOf (n : Nat) (l : List α) : List (List α) :=
  if n = 0 then [] else chunksOfAux l.length n l

/-! ## SHA-1 (FIPS 180) over byte lists, as computed by `hashlib.sha1`. -/

/-- Left rotation of a 32-bit word. -/
def rotl32 (k x : Nat) : Nat := ((x <<< k) ||| (x >>> (32 - k))) % 4294967296

/-- Round function of SHA-1. -/
def sha1F (t b c d : Nat) : Nat :=
  if t < 20 then (b &&& c) ||| ((b ^^^ 4294967295) &&& d)
  else if t < 40 then b ^^^ c ^^^ d
  else if t < 60 then (b &&& c) ||| (b &&& d) ||| (c &&& d)
  else b ^^^ c ^^^ d

/-- Round constant of SHA-1. -/
def sha1K (t : Nat) : Nat :=
  if t < 20 then 0x5A827999
  else if t < 40 then 0x6ED9EBA1
  else if t < 60 then 0x8F1BBCDC
  else 0xCA62C1D6

/-- Extend the message schedule (fuel-structural). -/
def extendWAux : Nat → List Nat → List Nat
  | 0, ws => ws
  | fuel + 1, ws =>
    if ws.length < 80 then
      extendWAux fuel (ws ++ [rotl32 1 ((ws.getD (ws.length - 3) 0) ^^^
        (ws.getD (ws.length - 8) 0) ^^^ (ws.getD (ws.length - 14) 0) ^^^
        (ws.getD (ws.length - 16) 0))])
    else ws

/-- Extend the 16-word message schedule to 80 words. -/
def extendW (ws : List Nat) : List Nat := extendWAux 80 ws

/-- SHA-1 hash state. -/
abbrev Sha1State := Nat × Nat × Nat × Nat × Nat

/-- One SHA-1 compression round. -/
def sha1Step (w : List Nat) (st : Sha1State) (t : Nat) : Sha1State :=
  let (a, b, c, d, e) := st
  ((rotl32 5 a + sha1F t b c d + e + sha1K t + w.getD t 0) % 4294967296,
   a, rotl32 30 b, c, d)

/-- Process one 64-byte chunk. -/
def sha1Chunk (h : Sha1State) (chunk : Bytes) : Sha1State :=
  let w := extendW ((chunksOf 4 chunk).map beVal)
  let (a, b, c, d, e) := (List.range 80).foldl (sha1Step w) h
  let (h0, h1, h2, h3, h4) := h
  ((h0 + a) % 4294967296, (h1 + b) % 4294967296, (h2 + c) % 4294967296,
   (h3 + d) % 4294967296, (h4 + e) % 4294967296)

/-- SHA-1 padding: append `0x80`, zeros, and the 64-bit bit length. -/
def sha1Pad (m : Bytes) : Bytes :=
  m ++ 128 :: List.replicate ((119 - m.length % 64) % 64) 0 ++
    beBytes 8 (m.length * 8)

/-- SHA-1 digest (20 bytes) of a byte string. -/
def sha1Bytes (m : Bytes) : Bytes :=
  let (a, b, c, d, e) := (chunksOf 64 (sha1Pad m)).foldl sha1Chunk
    (0x67452301, 0xEFCDAB89, 0x98BADCFE, 0x10325476, 0xC3D2E1F0)
  beBytes 4 a ++ beBytes 4 b ++ beBytes 4 c ++ beBytes 4 d ++ beBytes 4 e

/-- SHA-1 hex digest (40 hex characters) of a byte string. -/
def sha1Hex (m : Bytes) : Bytes := bytesToHex (sha1Bytes m)

set_option maxRecDepth 10000

example : sha1Hex (asc "abc") =
    asc "a9993e364706816aba3e25717850c26c9cd0d89d" := by decide
example : sha1Hex [] = asc "da39a3ee5e6b4b0d3255bfef95601890afd80709" := by
  decide
example : sha1Hex (asc "blob 5" ++ 0 :: asc "hello") =
    asc "b6fc4c620b67d95f953a5c1c1230aaab5db5a1b0" := by decide

/-! ## Python string primitives used by the sources. -/

/-- Whitespace bytes recognised by Python `split`/`strip` on ASCII data. -/
def isWsByte (c : Nat) : Bool :=
  c = 32 || c = 9 || c = 10 || c = 13 || c = 11 || c = 12

/-- Fuel-structural core of whitespace splitting. -/
def wsSplitAux : Nat → Bytes → List Bytes
  | 0, _ => []
  | _, [] => []
  | fuel + 1, c :: cs =>
    if isWsByte c then wsSplitAux fuel cs
    else (c :: cs.takeWhile (fun x => !isWsByte x)) ::
      wsSplitAux fuel (cs.dropWhile (fun x => !isWsByte x))

/-- Model of Python `.split()` with no argument: split on whitespace runs,
dropping empty fields. -/
def wsSplit (b : Bytes) : List Bytes := wsSplitAux b.length b

/-- Model of Python `.strip()`: drop leading and trailing whitespace. -/
def pyStrip (s : Bytes) : Bytes :=
  ((s.dropWhile (isWsByte ·)).reverse.dropWhile (isWsByte ·)).reverse

/-- Line-break code points recognised by Python `str.splitlines`. -/
def isLineBreak (c : Nat) : Bool :=
  c = 10 || c = 13 || c = 11 || c = 12 || c = 28 || c = 29 || c = 30 ||
  c = 31 || c = 133 || c = 8232 || c = 8233

/-- Accumulator-based core of `splitlines` (handles the `\r\n` digraph). -/
def splitLinesAux : Bytes → Bytes → List Bytes
  | [], acc => if acc.isEmpty then [] else [acc.reverse]
  | [c], acc =>
    if isLineBreak c then [acc.reverse] else [(c :: acc).reverse]
  | c :: d :: rest, acc =>
    if c = 13 ∧ d = 10 then acc.reverse :: splitLinesAux rest []
    else if isLineBreak c then acc.reverse :: splitLinesAux (d :: rest) []
    else splitLinesAux (d :: rest) (c :: acc)

/-- Model of Python `str.splitlines()`. -/
def pySplitLines (s : Bytes) : List Bytes := splitLinesAux s []

/-- Model of the Python slice `l[a:b]` for `0 ≤ a ≤ b` (clamping). -/
def pySlice (l : Bytes) (a b : Nat) : Bytes := (l.drop a).take (b - a)

/-- Split a byte string at the first NUL byte, as `x.split(b"\x00", 1)`
when the unpacking expects exactly two parts (`none` when no NUL occurs,
in which case the Python unpacking raises). -/
def splitFirstNul : Bytes → Option (Bytes × Bytes)
  | [] => none
  | 0 :: rest => some ([], rest)
  | c :: rest => (splitFirstNul rest).map fun p => (c :: p.1, p.2)

/-! ## Object store (`object_store.py`).

The `.git/objects` directory is modelled as an association list from the
hex hash (the object's path) to the compressed file contents. -/

/-- Filesystem model of `.git/objects`: hex hash ↦ stored file bytes. -/
abbrev ObjStore := List (Bytes × Bytes)

namespace ObjectStore

/-- Model of `compute_hash`: the full buffer is
`"<type> <len>\x00" + data` and the hash is its SHA-1 hex digest. -/
def compute_hash (data obj_type : Bytes) : Bytes × Bytes :=
  let header := obj_type ++ asc " " ++ decDigits data.length
  let full_data := header ++ 0 :: data
  (sha1Hex full_data, full_data)

/-- Model of `store_object`: write the compressed buffer at the path
derived from the hash unless a file already exists there; return the hash
and the updated store. -/
def store_object (compress : Bytes → Bytes) (data obj_type : Bytes)
    (S : ObjStore) : Bytes × ObjStore :=
  let h := (compute_hash data obj_type).1
  let full := (compute_hash data obj_type).2
  match S.lookup h with
  | some _ => (h, S)
  | none => (h, (h, compress full) :: S)

/-- Model of `retrieve_object`: look up the file, decompress, split at the
first NUL, and unpack the decoded header into exactly two tokens.  `none`
models the `FileNotFoundError` / `ValueError` exits. -/
def retrieve_object (decompress : Bytes → Bytes) (h : Bytes)
    (S : ObjStore) : Option (Bytes × Bytes) :=
  match S.lookup h with
  | none => none
  | some comp =>
    match splitFirstNul (decompress comp) with
    | none => none
    | some (header, data) =>
      match wsSplit header with
      | [t, _] => some (t, data)
      | _ => none

end ObjectStore

/-! ## Basic lemmas about the string primitives. -/

theorem decDigitsAux_mem : ∀ fuel n c, c ∈ decDigitsAux fuel n →
    48 ≤ c ∧ c ≤ 57 := by
  intro fuel
  induction fuel with
  | zero => intro n c hc; simp [decDigitsAux] at hc
  | succ f ih =>
    intro n c hc
    simp only [decDigitsAux] at hc
    by_cases h : n < 10
    · simp [h] at hc; omega
    · simp [h] at hc
      rcases hc with hc | hc
      · exact ih _ _ hc
      · omega

theorem decDigits_mem {n c : Nat} (hc : c ∈ decDigits n) : 48 ≤ c ∧ c ≤ 57 :=
  decDigitsAux_mem _ _ _ hc

theorem decDigits_ne_nil (n : Nat) : decDigits n ≠ [] := by
  unfold decDigits decDigitsAux
  by_cases h : n < 10 <;> simp [h]

theorem splitFirstNul_append : ∀ (a b : Bytes), (∀ c ∈ a, c ≠ 0) →
    splitFirstNul (a ++ 0 :: b) = some (a, b) := by
  intro a
  induction a with
  | nil => intro b _; simp [splitFirstNul]
  | cons c a ih =>
    intro b ha
    have hc : c ≠ 0 := ha c (by simp)
    obtain ⟨k, rfl⟩ := Nat.exists_eq_succ_of_ne_zero hc
    have hrec := ih b (fun x hx => ha x (by simp [hx]))
    simp only [List.cons_append, splitFirstNul, List.append_eq]
    rw [hrec]
    rfl

theorem takeWhile_eq_self_of {P : Nat → Bool} : ∀ l : Bytes,
    (∀ x ∈ l, P x = true) → l.takeWhile P = l := by
  intro l
  induction l with
  | nil => simp
  | cons c l ih =>
    intro h
    simp [List.takeWhile_cons, h c (by simp), ih
      (fun x hx => h x (by simp [hx]))]

theorem dropWhile_eq_nil_of {P : Nat → Bool} : ∀ l : Bytes,
    (∀ x ∈ l, P x = true) → l.dropWhile P = [] := by
  intro l
  induction l with
  | nil => simp
  | cons c l ih =>
    intro h
    simp [List.dropWhile_cons, h c (by simp), ih
      (fun x hx => h x (by simp [hx]))]

theorem takeWhile_middle {P : Nat → Bool} : ∀ (a : Bytes) (s : Nat)
    (b : Bytes), (∀ x ∈ a, P x = true) → P s = false →
    (a ++ s :: b).takeWhile P = a := by
  intro a
  induction a with
  | nil => intro s b _ hs; simp [List.takeWhile_cons, hs]
  | cons c a ih =>
    intro s b ha hs
    simp [List.takeWhile_cons, ha c (by simp),
      ih s b (fun x hx => ha x (by simp [hx])) hs]

theorem dropWhile_middle {P : Nat → Bool} : ∀ (a : Bytes) (s : Nat)
    (b : Bytes), (∀ x ∈ a, P x = true) → P s = false →
    (a ++ s :: b).dropWhile P = s :: b := by
  intro a
  induction a with
  | nil => intro s b _ hs; simp [List.dropWhile_cons, hs]
  | cons c a ih =>
    intro s b ha hs
    simp [List.dropWhile_cons, ha c (by simp),
      ih s b (fun x hx => ha x (by simp [hx])) hs]

theorem wsSplitAux_nil (fuel : Nat) : wsSplitAux fuel [] = [] := by
  cases fuel <;> rfl

theorem wsSplitAux_token : ∀ (fuel : Nat) (b : Bytes), b.length ≤ fuel →
    b ≠ [] → (∀ x ∈ b, isWsByte x = false) → wsSplitAux fuel b = [b] := by
  intro fuel
  induction fuel with
  | zero =>
    intro b hlen hne _
    cases b with
    | nil => exact absurd rfl hne
    | cons c cs => simp at hlen
  | succ f _ =>
    intro b _ hne hws
    cases b with
    | nil => exact absurd rfl hne
    | cons c cs =>
      have hall : ∀ x ∈ cs, (fun x => !isWsByte x) x = true := by
        intro x hx; simp [hws x (by simp [hx])]
      simp only [wsSplitAux, hws c (by simp), Bool.false_eq_true, if_false,
        takeWhile_eq_self_of cs hall, dropWhile_eq_nil_of cs hall,
        wsSplitAux_nil]

theorem wsSplitAux_two : ∀ (fuel : Nat) (a b : Bytes),
    a.length + b.length + 1 ≤ fuel → a ≠ [] →
    (∀ x ∈ a, isWsByte x = false) → b ≠ [] →
    (∀ x ∈ b, isWsByte x = false) →
    wsSplitAux fuel (a ++ 32 :: b) = [a, b] := by
  intro fuel a b hlen hane haw hbne hbw
  cases a with
  | nil => exact absurd rfl hane
  | cons c a1 =>
    have ha1 : ∀ x ∈ a1, (fun x => !isWsByte x) x = true := by
      intro x hx; simp [haw x (by simp [hx])]
    have hws32 : (fun x : Nat => !isWsByte x) 32 = false := by decide
    cases fuel with
    | zero => simp at hlen
    | succ f =>
      simp only [List.cons_append, wsSplitAux, haw c (by simp),
        Bool.false_eq_true, if_false, List.append_eq,
        takeWhile_middle a1 32 b ha1 hws32, dropWhile_middle a1 32 b ha1 hws32]
      cases f with
      | zero => simp [List.length_cons] at hlen
      | succ g =>
        have hstep : wsSplitAux (g + 1) (32 :: b) = wsSplitAux g b := by
          simp [wsSplitAux, isWsByte]
        rw [hstep, wsSplitAux_token g b (by
          simp [List.length_cons] at hlen; omega) hbne hbw]

theorem wsSplit_two (a b : Bytes) (hane : a ≠ [])
    (haw : ∀ x ∈ a, isWsByte x = false) (hbne : b ≠ [])
    (hbw : ∀ x ∈ b, isWsByte x = false) :
    wsSplit (a ++ 32 :: b) = [a, b] := by
  unfold wsSplit
  exact wsSplitAux_two _ a b
    (by simp only [List.length_append, List.length_cons]; omega)
    hane haw hbne hbw

/-! ## Claim C1: store/retrieve round-trip. -/

theorem lookup_cons_self {α β : Type} [BEq α] [LawfulBEq α] (k : α) (v : β)
    (S : List (α × β)) : ((k, v) :: S).lookup k = some v := by
  simp [List.lookup]

/-- Helper: retrieving a hash whose stored file decompresses to a
well-formed `"<type> <digits>\x00" ++ data` buffer yields the type and the
data. -/
theorem retrieve_object_of_lookup (decompress : Bytes → Bytes) (hsh : Bytes)
    (S2 : ObjStore) (c ty ds data : Bytes)
    (hlook : S2.lookup hsh = some c)
    (hdec : decompress c = (ty ++ 32 :: ds) ++ 0 :: data)
    (htyne : ty ≠ []) (htyws : ∀ x ∈ ty, isWsByte x = false)
    (hty0 : ∀ x ∈ ty, x ≠ 0)
    (hdsne : ds ≠ []) (hdsws : ∀ x ∈ ds, isWsByte x = false)
    (hds0 : ∀ x ∈ ds, x ≠ 0) :
    ObjectStore.retrieve_object decompress hsh S2 = some (ty, data) := by
  have hh0 : ∀ x ∈ ty ++ 32 :: ds, x ≠ 0 := by
    intro x hx
    rcases List.mem_append.mp hx with h | h
    · exact hty0 x h
    · rcases List.mem_cons.mp h with h | h
      · omega
      · exact hds0 x h
  simp only [ObjectStore.retrieve_object, hlook, hdec,
    splitFirstNul_append (ty ++ 32 :: ds) data hh0,
    wsSplit_two ty ds htyne htyws hdsne hdsws]

/-- Helper: `store_object` returns the content hash, and afterwards the
store maps that hash to the compressed full buffer (assuming any
pre-existing file at that hash already held exactly that buffer). -/
theorem store_object_lookup (compress : Bytes → Bytes) (data ty : Bytes)
    (S : ObjStore)
    (hS : ∀ b, S.lookup (ObjectStore.compute_hash data ty).1 = some b →
      b = compress (ObjectStore.compute_hash data ty).2) :
    (ObjectStore.store_object compress data ty S).1 =
      (ObjectStore.compute_hash data ty).1 ∧
    (ObjectStore.store_object compress data ty S).2.lookup
        (ObjectStore.compute_hash data ty).1 =
      some (compress (ObjectStore.compute_hash data ty).2) := by
  simp only [ObjectStore.store_object]
  cases hl : S.lookup (ObjectStore.compute_hash data ty).1 with
  | some b =>
    refine ⟨rfl, ?_⟩
    rw [hl, hS b hl]
  | none =>
    exact ⟨rfl, lookup_cons_self _ _ _⟩

/-- Claim C1: for every object kind in `{blob, tree, commit}` and every byte
string content, retrieving the hash returned by storing that content yields
back exactly the same kind and the same content, provided decompression
inverts compression and no differing file already sits at that hash
(content addressing: a pre-existing file at the hash must hold the same
compressed buffer). -/
theorem c1_store_retrieve_roundtrip
    (compress decompress : Bytes → Bytes)
    (hcd : ∀ x, decompress (compress x) = x)
    (S : ObjStore) (data ty : Bytes)
    (hty : ty = asc "blob" ∨ ty = asc "tree" ∨ ty = asc "commit")
    (hS : ∀ b, S.lookup (ObjectStore.compute_hash data ty).1 = some b →
      b = compress (ObjectStore.compute_hash data ty).2) :
    ObjectStore.retrieve_object decompress
      (ObjectStore.store_object compress data ty S).1
      (ObjectStore.store_object compress data ty S).2 = some (ty, data) := by
  have hty0 : ∀ x ∈ ty, x ≠ 0 := by
    rcases hty with h | h | h <;> subst h <;> decide
  have htyws : ∀ x ∈ ty, isWsByte x = false := by
    rcases hty with h | h | h <;> subst h <;> decide
  have htyne : ty ≠ [] := by
    rcases hty with h | h | h <;> subst h <;> decide
  have hd0 : ∀ x ∈ decDigits data.length, x ≠ 0 := by
    intro x hx; have := decDigits_mem hx; omega
  have hdws : ∀ x ∈ decDigits data.length, isWsByte x = false := by
    intro x hx; have := decDigits_mem hx; simp [isWsByte]; omega
  obtain ⟨h1, h2⟩ := store_object_lookup compress data ty S hS
  rw [h1]
  have hfull : (ObjectStore.compute_hash data ty).2 =
      (ty ++ 32 :: decDigits data.length) ++ 0 :: data := by
    simp [ObjectStore.compute_hash, asc]
  exact retrieve_object_of_lookup decompress _ _ _ ty
    (decDigits data.length) data h2 (by rw [hcd, hfull]) htyne htyws hty0
    (decDigits_ne_nil _) hdws hd0

/-- Witness for C1 at compress = decompress = id, an empty store, kind
`blob`, content `"test"`. -/
theorem c1_witness :
    ObjectStore.retrieve_object id
      (ObjectStore.store_object id (asc "test") (asc "blob") []).1
      (ObjectStore.store_object id (asc "test") (asc "blob") []).2 =
      some (asc "blob", asc "test") :=
  c1_store_retrieve_roundtrip id id (fun _ => rfl) [] (asc "test")
    (asc "blob") (Or.inl rfl) (fun b h => by simp at h)

/-! ## Staging index (`index_manager.py`). -/

/-- One staging-area record (`IndexEntry` namedtuple). `sha1` is a byte
string and `path` a (decoded) string, both modelled as `List Nat`. -/
structure IndexEntry where
  ctime_s : Nat
  ctime_n : Nat
  mtime_s : Nat
  mtime_n : Nat
  dev : Nat
  ino : Nat
  mode : Nat
  uid : Nat
  gid : Nat
  size : Nat
  sha1 : Bytes
  flags : Nat
  path : Bytes
deriving DecidableEq

namespace IndexManager

/-- Model of the `struct` format `20s`: pad with NULs or truncate to
exactly 20 bytes. -/
def fix20 (b : Bytes) : Bytes := b.take 20 ++ List.replicate (20 - b.length) 0

/-- The 62 fixed bytes of one entry: ten big-endian 4-byte fields, the
20-byte hash field, the 2-byte flags field. -/
def packedFixed (e : IndexEntry) : Bytes :=
  beBytes 4 e.ctime_s ++ beBytes 4 e.ctime_n ++ beBytes 4 e.mtime_s ++
    beBytes 4 e.mtime_n ++ beBytes 4 e.dev ++ beBytes 4 e.ino ++
    beBytes 4 e.mode ++ beBytes 4 e.uid ++ beBytes 4 e.gid ++
    beBytes 4 e.size ++ fix20 e.sha1 ++ beBytes 2 e.flags

/-- Serialize the fixed 62-byte portion of one entry
(`struct.pack("!LLLLLLLLLL20sH", ...)`).  The ten 4-byte fields are packed
after an `& 0xFFFFFFFF` mask (`beBytes 4` agrees with that mask); `!H`
raises for flags outside 16 bits, modelled by `none`. -/
def packEntry (e : IndexEntry) : Option Bytes :=
  if e.flags < 65536 then some (packedFixed e) else none

/-- Serialize one whole entry record: fixed fields, path, NUL terminator,
zero padding to an 8-byte multiple of the nominal `62 + len(path) + 1`
record (as computed by `write_index`). -/
def entryRecord (e : IndexEntry) : Option Bytes :=
  (packEntry e).map fun fixed =>
    let entryData := fixed ++ e.path ++ [0]
    let entryLen := (62 + e.path.length + 8) / 8 * 8
    entryData ++ List.replicate (entryLen - entryData.length) 0

/-- Model of `write_index`: header (`"DIRC"`, version 2, entry count), the
entry records, and a trailing SHA-1 checksum over everything before it. -/
def write_index (entries : List IndexEntry) : Option Bytes :=
  if entries.length < 4294967296 then
    (entries.mapM entryRecord).map fun recs =>
      let data := asc "DIRC" ++ beBytes 4 2 ++ beBytes 4 entries.length ++
        recs.flatten
      data ++ sha1Bytes data
  else none

/-- Failure modes of `read_index`: a too-short header buffer
(`struct.error`), the two explicit `ValueError`s for signature and
version, and a missing NUL path terminator (`ValueError` from `index`). -/
inductive IndexReadError where
  | structError
  | badSignature
  | badVersion
  | nulMissing
deriving DecidableEq

/-- Fuel-structural model of the entry-parsing loop of `read_index`:
while at least 62 bytes remain, unpack the fixed fields, scan for the NUL
terminating the path, and skip to the next 8-byte-aligned record. -/
def parseEntriesAux : Nat → Bytes → Except IndexReadError (List IndexEntry)
  | 0, _ => Except.ok []
  | fuel + 1, buf =>
    if 62 ≤ buf.length then
      match (buf.drop 62).findIdx? (fun x => x == 0) with
      | none => Except.error .nulMissing
      | some j =>
        let path := (buf.drop 62).take j
        let e : IndexEntry :=
          { ctime_s := beVal (pySlice buf 0 4)
            ctime_n := beVal (pySlice buf 4 8)
            mtime_s := beVal (pySlice buf 8 12)
            mtime_n := beVal (pySlice buf 12 16)
            dev := beVal (pySlice buf 16 20)
            ino := beVal (pySlice buf 20 24)
            mode := beVal (pySlice buf 24 28)
            uid := beVal (pySlice buf 28 32)
            gid := beVal (pySlice buf 32 36)
            size := beVal (pySlice buf 36 40)
            sha1 := pySlice buf 40 60
            flags := beVal (pySlice buf 60 62)
            path := path }
        let entryLen := (62 + path.length + 8) / 8 * 8
        (parseEntriesAux fuel (buf.drop entryLen)).map fun rest => e :: rest
    else Except.ok []

/-- Model of `read_index`.  `none` as input models a missing index file
(return `[]`); otherwise the 12-byte header is unpacked (a shorter file
makes `struct.unpack` raise), the signature and version are validated,
and the entries are parsed. -/
def read_index (file : Option Bytes) : Except IndexReadError (List IndexEntry) :=
  match file with
  | none => Except.ok []
  | some data =>
    if data.length < 12 then Except.error .structError
    else if pySlice data 0 4 ≠ asc "DIRC" then Except.error .badSignature
    else if beVal (pySlice data 4 8) ≠ 2 then Except.error .badVersion
    else parseEntriesAux (data.length + 1) (data.drop 12)

end IndexManager

/-! ## Byte-level lemmas for the index format. -/

theorem beBytes_length : ∀ (k n : Nat), (beBytes k n).length = k := by
  intro k
  induction k with
  | zero => intro n; rfl
  | succ j ih => intro n; simp [beBytes, ih]

theorem beVal_foldl : ∀ (k n a : Nat),
    List.foldl (fun acc x => acc * 256 + x) a (beBytes k n) =
      a * 256 ^ k + n % 256 ^ k := by
  intro k
  induction k with
  | zero => intro n a; simp [beBytes, beVal, Nat.mod_one]
  | succ j ih =>
    intro n a
    simp only [beBytes, List.foldl_cons, ih]
    have hsplit : n % 256 ^ (j + 1) = n % 256 ^ j + 256 ^ j * (n / 256 ^ j % 256) := by
      rw [pow_succ, Nat.mod_mul]
    rw [hsplit, pow_succ]
    ring

theorem beVal_beBytes (k n : Nat) : beVal (beBytes k n) = n % 256 ^ k := by
  unfold beVal
  rw [beVal_foldl]
  simp

theorem beVal_beBytes_of_lt {k n : Nat} (h : n < 256 ^ k) :
    beVal (beBytes k n) = n := by
  rw [beVal_beBytes, Nat.mod_eq_of_lt h]

theorem beVal_beBytes4 {n : Nat} (h : n < 4294967296) :
    beVal (beBytes 4 n) = n :=
  beVal_beBytes_of_lt (lt_of_lt_of_le h (le_of_eq (by norm_num)))

theorem beVal_beBytes2 {n : Nat} (h : n < 65536) :
    beVal (beBytes 2 n) = n :=
  beVal_beBytes_of_lt (lt_of_lt_of_le h (le_of_eq (by norm_num)))

theorem fix20_length (b : Bytes) : (IndexManager.fix20 b).length = 20 := by
  simp [IndexManager.fix20]
  omega

theorem fix20_of_len {b : Bytes} (h : b.length = 20) :
    IndexManager.fix20 b = b := by
  unfold IndexManager.fix20
  rw [h, List.take_of_length_le (by omega)]
  simp

theorem pySlice_first {v : Bytes} (w : Bytes) {n : Nat} (hv : v.length = n) :
    pySlice (v ++ w) 0 n = v := by
  subst hv
  simp [pySlice, List.take_left]

theorem drop_append_len {u : Bytes} (T : Bytes) {n : Nat}
    (hu : u.length = n) : (u ++ T).drop n = T := by
  subst hu
  exact List.drop_left u T

theorem findIdx_nul : ∀ (a b : Bytes), (∀ x ∈ a, x ≠ 0) →
    (a ++ 0 :: b).findIdx? (fun x => x == 0) = some a.length := by
  intro a
  induction a with
  | nil => intro b _; simp [List.findIdx?]
  | cons c a ih =>
    intro b ha
    have hc : c ≠ 0 := ha c (by simp)
    have := ih b (fun x hx => ha x (by simp [hx]))
    simp [List.findIdx?_cons, hc, this]

theorem pySlice_after {u : Bytes} (T : Bytes) (a b : Nat) {n : Nat}
    (hu : u.length = n) (ha : n ≤ a) :
    pySlice (u ++ T) a b = pySlice T (a - n) (b - n) := by
  unfold pySlice
  have h2 : List.drop (a - n) (List.drop n (u ++ T)) = List.drop a (u ++ T) := by
    rw [List.drop_drop]
    congr 1
    omega
  rw [← h2, List.drop_left' hu]
  congr 1
  omega

theorem drop_chunk {u : Bytes} (T : Bytes) {n m : Nat} (hu : u.length = n) :
    (u ++ T).drop (n + m) = T.drop m := by
  rw [← List.drop_drop, List.drop_left' hu]

/-- The entry well-formedness assumptions of the index round-trip claim:
fields fit their encoded widths, the hash field is exactly 20 bytes, and
the path has no NUL byte. -/
def WFEntry (e : IndexEntry) : Prop :=
  e.ctime_s < 4294967296 ∧ e.ctime_n < 4294967296 ∧
  e.mtime_s < 4294967296 ∧ e.mtime_n < 4294967296 ∧
  e.dev < 4294967296 ∧ e.ino < 4294967296 ∧ e.mode < 4294967296 ∧
  e.uid < 4294967296 ∧ e.gid < 4294967296 ∧ e.size < 4294967296 ∧
  e.sha1.length = 20 ∧ e.flags < 65536 ∧ ∀ c ∈ e.path, c ≠ 0

theorem packedFixed_length (e : IndexEntry) :
    (IndexManager.packedFixed e).length = 62 := by
  simp [IndexManager.packedFixed, beBytes_length, fix20_length]

/-- Slicing facts for a buffer beginning with the packed fixed block. -/
theorem packedFixed_slices (e : IndexEntry) (X : Bytes) :
    pySlice (IndexManager.packedFixed e ++ X) 0 4 = beBytes 4 e.ctime_s ∧
    pySlice (IndexManager.packedFixed e ++ X) 4 8 = beBytes 4 e.ctime_n ∧
    pySlice (IndexManager.packedFixed e ++ X) 8 12 = beBytes 4 e.mtime_s ∧
    pySlice (IndexManager.packedFixed e ++ X) 12 16 = beBytes 4 e.mtime_n ∧
    pySlice (IndexManager.packedFixed e ++ X) 16 20 = beBytes 4 e.dev ∧
    pySlice (IndexManager.packedFixed e ++ X) 20 24 = beBytes 4 e.ino ∧
    pySlice (IndexManager.packedFixed e ++ X) 24 28 = beBytes 4 e.mode ∧
    pySlice (IndexManager.packedFixed e ++ X) 28 32 = beBytes 4 e.uid ∧
    pySlice (IndexManager.packedFixed e ++ X) 32 36 = beBytes 4 e.gid ∧
    pySlice (IndexManager.packedFixed e ++ X) 36 40 = beBytes 4 e.size ∧
    pySlice (IndexManager.packedFixed e ++ X) 40 60 = IndexManager.fix20 e.sha1 ∧
    pySlice (IndexManager.packedFixed e ++ X) 60 62 = beBytes 2 e.flags ∧
    (IndexManager.packedFixed e ++ X).drop 62 = X := by
  have hb : IndexManager.packedFixed e ++ X =
      beBytes 4 e.ctime_s ++ (beBytes 4 e.ctime_n ++ (beBytes 4 e.mtime_s ++
      (beBytes 4 e.mtime_n ++ (beBytes 4 e.dev ++ (beBytes 4 e.ino ++
      (beBytes 4 e.mode ++ (beBytes 4 e.uid ++ (beBytes 4 e.gid ++
      (beBytes 4 e.size ++ (IndexManager.fix20 e.sha1 ++
      (beBytes 2 e.flags ++ X))))))))))) := by
    simp [IndexManager.packedFixed, List.append_assoc]
  rw [hb]
  have l4 : ∀ m : Nat, (beBytes 4 m).length = 4 := fun m => beBytes_length 4 m
  have l2 : (beBytes 2 e.flags).length = 2 := beBytes_length 2 e.flags
  have ls : (IndexManager.fix20 e.sha1).length = 20 := fix20_length e.sha1
  refine ⟨?_, ?_, ?_, ?_, ?_, ?_, ?_, ?_, ?_, ?_, ?_, ?_, ?_⟩
  · exact pySlice_first _ (l4 _)
  · rw [pySlice_after _ 4 8 (l4 _) (by omega)]
    exact pySlice_first _ (l4 _)
  · rw [pySlice_after _ 8 12 (l4 _) (by omega),
      pySlice_after _ 4 8 (l4 _) (by omega)]
    exact pySlice_first _ (l4 _)
  · rw [pySlice_after _ 12 16 (l4 _) (by omega),
      pySlice_after _ 8 12 (l4 _) (by omega),
      pySlice_after _ 4 8 (l4 _) (by omega)]
    exact pySlice_first _ (l4 _)
  · rw [pySlice_after _ 16 20 (l4 _) (by omega),
      pySlice_after _ 12 16 (l4 _) (by omega),
      pySlice_after _ 8 12 (l4 _) (by omega),
      pySlice_after _ 4 8 (l4 _) (by omega)]
    exact pySlice_first _ (l4 _)
  · rw [pySlice_after _ 20 24 (l4 _) (by omega),
      pySlice_after _ 16 20 (l4 _) (by omega),
      pySlice_after _ 12 16 (l4 _) (by omega),
      pySlice_after _ 8 12 (l4 _) (by omega),
      pySlice_after _ 4 8 (l4 _) (by omega)]
    exact pySlice_first _ (l4 _)
  · rw [pySlice_after _ 24 28 (l4 _) (by omega),
      pySlice_after _ 20 24 (l4 _) (by omega),
      pySlice_after _ 16 20 (l4 _) (by omega),
      pySlice_after _ 12 16 (l4 _) (by omega),
      pySlice_after _ 8 12 (l4 _) (by omega),
      pySlice_after _ 4 8 (l4 _) (by omega)]
    exact pySlice_first _ (l4 _)
  · rw [pySlice_after _ 28 32 (l4 _) (by omega),
      pySlice_after _ 24 28 (l4 _) (by omega),
      pySlice_after _ 20 24 (l4 _) (by omega),
      pySlice_after _ 16 20 (l4 _) (by omega),
      pySlice_after _ 12 16 (l4 _) (by omega),
      pySlice_after _ 8 12 (l4 _) (by omega)]
    exact pySlice_first _ (l4 _)
  · rw [pySlice_after _ 32 36 (l4 _) (by omega),
      pySlice_after _ 28 32 (l4 _) (by omega),
      pySlice_after _ 24 28 (l4 _) (by omega),
      pySlice_after _ 20 24 (l4 _) (by omega),
      pySlice_after _ 16 20 (l4 _) (by omega),
      pySlice_after _ 12 16 (l4 _) (by omega),
      pySlice_after _ 8 12 (l4 _) (by omega)]
    exact pySlice_first _ (l4 _)
  · rw [pySlice_after _ 36 40 (l4 _) (by omega),
      pySlice_after _ 32 36 (l4 _) (by omega),
      pySlice_after _ 28 32 (l4 _) (by omega),
      pySlice_after _ 24 28 (l4 _) (by omega),
      pySlice_after _ 20 24 (l4 _) (by omega),
      pySlice_after _ 16 20 (l4 _) (by omega),
      pySlice_after _ 12 16 (l4 _) (by omega),
      pySlice_after _ 8 12 (l4 _) (by omega)]
    exact pySlice_first _ (l4 _)
  · rw [pySlice_after _ 40 60 (l4 _) (by omega),
      pySlice_after _ 36 56 (l4 _) (by omega),
      pySlice_after _ 32 52 (l4 _) (by omega),
      pySlice_after _ 28 48 (l4 _) (by omega),
      pySlice_after _ 24 44 (l4 _) (by omega),
      pySlice_after _ 20 40 (l4 _) (by omega),
      pySlice_after _ 16 36 (l4 _) (by omega),
      pySlice_after _ 12 32 (l4 _) (by omega),
      pySlice_after _ 8 28 (l4 _) (by omega),
      pySlice_after _ 4 24 (l4 _) (by omega)]
    exact pySlice_first _ ls
  · rw [pySlice_after _ 60 62 (l4 _) (by omega),
      pySlice_after _ 56 58 (l4 _) (by omega),
      pySlice_after _ 52 54 (l4 _) (by omega),
      pySlice_after _ 48 50 (l4 _) (by omega),
      pySlice_after _ 44 46 (l4 _) (by omega),
      pySlice_after _ 40 42 (l4 _) (by omega),
      pySlice_after _ 36 38 (l4 _) (by omega),
      pySlice_after _ 32 34 (l4 _) (by omega),
      pySlice_after _ 28 30 (l4 _) (by omega),
      pySlice_after _ 24 26 (l4 _) (by omega),
      pySlice_after _ 20 22 (ls) (by omega)]
    exact pySlice_first _ l2
  · rw [show (62 : Nat) = 4 + 58 from rfl, drop_chunk _ (l4 _),
      show (58 : Nat) = 4 + 54 from rfl, drop_chunk _ (l4 _),
      show (54 : Nat) = 4 + 50 from rfl, drop_chunk _ (l4 _),
      show (50 : Nat) = 4 + 46 from rfl, drop_chunk _ (l4 _),
      show (46 : Nat) = 4 + 42 from rfl, drop_chunk _ (l4 _),
      show (42 : Nat) = 4 + 38 from rfl, drop_chunk _ (l4 _),
      show (38 : Nat) = 4 + 34 from rfl, drop_chunk _ (l4 _),
      show (34 : Nat) = 4 + 30 from rfl, drop_chunk _ (l4 _),
      show (30 : Nat) = 4 + 26 from rfl, drop_chunk _ (l4 _),
      show (26 : Nat) = 4 + 22 from rfl, drop_chunk _ (l4 _),
      show (22 : Nat) = 20 + 2 from rfl, drop_chunk _ ls,
      show (2 : Nat) = 2 + 0 from rfl, drop_chunk _ l2]
    simp

/-- The record emitted by `write_index` for one well-formed entry, shaped
for parsing: fixed block, path, NUL, zero padding (followed by anything). -/
theorem entryRecord_append (e : IndexEntry) (hfl : e.flags < 65536)
    (rest : Bytes) :
    ∃ rec, IndexManager.entryRecord e = some rec ∧
      rec.length = (62 + e.path.length + 8) / 8 * 8 ∧
      rec ++ rest = IndexManager.packedFixed e ++ (e.path ++ 0 ::
        (List.replicate ((62 + e.path.length + 8) / 8 * 8 -
          (62 + e.path.length + 1)) 0 ++ rest)) := by
  have hpack : IndexManager.packEntry e = some (IndexManager.packedFixed e) := by
    simp [IndexManager.packEntry, hfl]
  have hlen : (IndexManager.packedFixed e ++ e.path ++ [0]).length =
      62 + e.path.length + 1 := by
    simp [packedFixed_length]
    omega
  have hrec : IndexManager.entryRecord e =
      some ((IndexManager.packedFixed e ++ e.path ++ [0]) ++
        List.replicate ((62 + e.path.length + 8) / 8 * 8 -
          (62 + e.path.length + 1)) 0) := by
    simp only [IndexManager.entryRecord, hpack, Option.map_some']
    rw [hlen]
  refine ⟨_, hrec, ?_, ?_⟩
  · simp only [List.length_append, List.length_replicate,
      packedFixed_length, List.length_cons, List.length_nil]
    omega
  · simp only [List.append_assoc, List.cons_append, List.nil_append]

/-- Parsing one well-formed record from the front of the buffer yields the
original entry and continues after the record. -/
theorem parse_record (fuel : Nat) (e : IndexEntry) (rest : Bytes)
    (hwf : WFEntry e) (rec : Bytes)
    (hrec : IndexManager.entryRecord e = some rec) :
    IndexManager.parseEntriesAux (fuel + 1) (rec ++ rest) =
      (IndexManager.parseEntriesAux fuel rest).map (e :: ·) := by
  obtain ⟨h1, h2, h3, h4, h5, h6, h7, h8, h9, h10, hsha, hfl, hp0⟩ := hwf
  obtain ⟨rec2, hrec2, hreclen, hshape⟩ := entryRecord_append e hfl rest
  rw [hrec] at hrec2
  injection hrec2 with heq
  subst heq
  set pad := List.replicate ((62 + e.path.length + 8) / 8 * 8 -
    (62 + e.path.length + 1)) 0 with hpad
  set X := e.path ++ 0 :: (pad ++ rest) with hX
  obtain ⟨s1, s2, s3, s4, s5, s6, s7, s8, s9, s10, ssha, sfl, sdrop⟩ :=
    packedFixed_slices e X
  have hbuflen : 62 ≤ (rec ++ rest).length := by
    rw [hshape]
    simp [packedFixed_length]
  have hfind : ((rec ++ rest).drop 62).findIdx? (fun x => x == 0) =
      some e.path.length := by
    rw [hshape, sdrop, hX]
    exact findIdx_nul e.path _ hp0
  have htake : ((rec ++ rest).drop 62).take e.path.length = e.path := by
    rw [hshape, sdrop, hX, List.take_left]
  have hdroprec : (rec ++ rest).drop ((62 + e.path.length + 8) / 8 * 8) =
      rest := by
    rw [← hreclen, List.drop_left]
  simp only [IndexManager.parseEntriesAux, if_pos hbuflen, hfind, htake]
  rw [hdroprec, hshape]
  simp only [s1, s2, s3, s4, s5, s6, s7, s8, s9, s10, ssha, sfl,
    beVal_beBytes4 h1, beVal_beBytes4 h2, beVal_beBytes4 h3,
    beVal_beBytes4 h4, beVal_beBytes4 h5, beVal_beBytes4 h6,
    beVal_beBytes4 h7, beVal_beBytes4 h8, beVal_beBytes4 h9,
    beVal_beBytes4 h10, beVal_beBytes2 hfl, fix20_of_len hsha]

theorem sha1Bytes_length (m : Bytes) : (sha1Bytes m).length = 20 := by
  simp only [sha1Bytes]
  obtain ⟨a, b, c, d, e⟩ : Sha1State :=
    (chunksOf 64 (sha1Pad m)).foldl sha1Chunk
      (0x67452301, 0xEFCDAB89, 0x98BADCFE, 0x10325476, 0xC3D2E1F0)
  simp [beBytes_length]

theorem mapM_entryRecord : ∀ entries : List IndexEntry,
    (∀ e ∈ entries, e.flags < 65536) →
    ∃ recs, entries.mapM IndexManager.entryRecord = some recs ∧
      entries.length ≤ recs.flatten.length := by
  intro entries
  induction entries with
  | nil => intro _; exact ⟨[], rfl, by simp⟩
  | cons e es ih =>
    intro hfl
    obtain ⟨recs, hm, hlen⟩ := ih (fun x hx => hfl x (by simp [hx]))
    obtain ⟨rec, hrec, hreclen, _⟩ :=
      entryRecord_append e (hfl e (by simp)) []
    refine ⟨rec :: recs, ?_, ?_⟩
    · rw [List.mapM_cons, hrec, hm]
      rfl
    · simp only [List.flatten_cons, List.length_append, List.length_cons,
        hreclen]
      omega

theorem parse_flatten : ∀ (entries : List IndexEntry) (recs : List Bytes)
    (fuel : Nat) (tail : Bytes), (∀ e ∈ entries, WFEntry e) →
    entries.mapM IndexManager.entryRecord = some recs →
    tail.length < 62 → entries.length < fuel →
    IndexManager.parseEntriesAux fuel (recs.flatten ++ tail) =
      Except.ok entries := by
  intro entries
  induction entries with
  | nil =>
    intro recs fuel tail _ hm htail hfuel
    have hrecs : recs = [] := by
      simp only [List.mapM_nil] at hm
      exact (Option.some.inj hm).symm
    subst hrecs
    cases fuel with
    | zero => omega
    | succ f =>
      simp only [List.flatten_nil, List.nil_append, IndexManager.parseEntriesAux]
      rw [if_neg (by omega)]
  | cons e es ih =>
    intro recs fuel tail hwf hm htail hfuel
    rw [List.mapM_cons] at hm
    cases hrec : IndexManager.entryRecord e with
    | none => rw [hrec] at hm; simp at hm
    | some rec =>
      rw [hrec] at hm
      cases hrs : es.mapM IndexManager.entryRecord with
      | none => rw [hrs] at hm; simp at hm
      | some rs =>
        rw [hrs] at hm
        simp only [Option.bind_some, Option.pure_def, Option.bind_eq_bind,
          Option.some.injEq] at hm
        have hm2 : rec :: rs = recs := by
          simpa using hm
        subst hm2
        cases fuel with
        | zero => omega
        | succ f =>
          rw [List.flatten_cons, List.append_assoc,
            parse_record f e (rs.flatten ++ tail) (hwf e (by simp)) rec hrec,
            ih rs f tail (fun x hx => hwf x (by simp [hx])) hrs htail
              (by simp at hfuel; omega)]
          rfl

/-- Claim C4: writing any well-formed entry sequence and reading the
resulting bytes returns an equal sequence in the same order. -/
theorem c4_index_roundtrip (entries : List IndexEntry)
    (hn : entries.length < 4294967296) (hwf : ∀ e ∈ entries, WFEntry e) :
    ∃ bs, IndexManager.write_index entries = some bs ∧
      IndexManager.read_index (some bs) = Except.ok entries := by
  obtain ⟨recs, hm, hflatlen⟩ := mapM_entryRecord entries
    (fun e he => ((hwf e he).2.2.2.2.2.2.2.2.2.2.2).1)
  have hw : IndexManager.write_index entries =
      some ((asc "DIRC" ++ beBytes 4 2 ++ beBytes 4 entries.length ++
        recs.flatten) ++
        sha1Bytes (asc "DIRC" ++ beBytes 4 2 ++ beBytes 4 entries.length ++
          recs.flatten)) := by
    simp only [IndexManager.write_index, if_pos hn, hm, Option.map_some']
  refine ⟨_, hw, ?_⟩
  set S := sha1Bytes (asc "DIRC" ++ beBytes 4 2 ++ beBytes 4 entries.length ++
    recs.flatten) with hS
  have hSlen : S.length = 20 := sha1Bytes_length _
  have hbs : (asc "DIRC" ++ beBytes 4 2 ++ beBytes 4 entries.length ++
      recs.flatten) ++ S =
      asc "DIRC" ++ (beBytes 4 2 ++ (beBytes 4 entries.length ++
        (recs.flatten ++ S))) := by
    simp [List.append_assoc]
  have hdirc : (asc "DIRC").length = 4 := by decide
  have hlen12 : 12 ≤ ((asc "DIRC" ++ beBytes 4 2 ++ beBytes 4 entries.length ++
      recs.flatten) ++ S).length := by
    rw [hbs]
    simp [hdirc, beBytes_length]
    omega
  have hsig : pySlice ((asc "DIRC" ++ beBytes 4 2 ++
      beBytes 4 entries.length ++ recs.flatten) ++ S) 0 4 = asc "DIRC" := by
    rw [hbs]
    exact pySlice_first _ hdirc
  have hver : pySlice ((asc "DIRC" ++ beBytes 4 2 ++
      beBytes 4 entries.length ++ recs.flatten) ++ S) 4 8 = beBytes 4 2 := by
    rw [hbs, pySlice_after _ 4 8 hdirc (by omega)]
    exact pySlice_first _ (beBytes_length 4 2)
  have hdrop : ((asc "DIRC" ++ beBytes 4 2 ++ beBytes 4 entries.length ++
      recs.flatten) ++ S).drop 12 = recs.flatten ++ S := by
    rw [hbs, show (12 : Nat) = 4 + 8 from rfl, drop_chunk _ hdirc,
      show (8 : Nat) = 4 + 4 from rfl, drop_chunk _ (beBytes_length 4 2),
      show (4 : Nat) = 4 + 0 from rfl, drop_chunk _ (beBytes_length 4 _)]
    simp
  simp only [IndexManager.read_index]
  rw [if_neg (by omega), if_neg (by rw [hsig]; simp), if_neg (by
    rw [hver, beVal_beBytes4 (by norm_num)]; simp), hdrop]
  apply parse_flatten entries recs _ S hwf hm (by omega)
  have : recs.flatten.length ≤ ((asc "DIRC" ++ beBytes 4 2 ++
      beBytes 4 entries.length ++ recs.flatten) ++ S).length := by
    simp only [List.length_append]
    omega
  omega

/-- Sample entry for the C4 witness. -/
def c4Entry : IndexEntry :=
  ⟨1, 2, 3, 4, 5, 6, 33188, 7, 8, 5, List.replicate 20 171, 0, asc "a.txt"⟩

/-- Witness for C4 at a concrete one-entry sequence. -/
theorem c4_witness : ∃ bs,
    IndexManager.write_index [c4Entry] = some bs ∧
    IndexManager.read_index (some bs) = Except.ok [c4Entry] :=
  c4_index_roundtrip [c4Entry] (by decide) (by
    intro e he
    simp only [List.mem_singleton] at he
    subst he
    constructor
    · decide
    · refine ⟨by decide, by decide, by decide, by decide, by decide,
        by decide, by decide, by decide, by decide, by decide, by decide,
        by decide⟩)

/-! ## Staging files (`add_to_index`, `list_index`) and claim C5. -/

/-- Octal digit characters of a natural number (fuel-structural). -/
def octDigitsAux : Nat → Nat → List Nat
  | 0, _ => []
  | fuel + 1, n =>
    if n < 8 then [48 + n]
    else octDigitsAux fuel (n / 8) ++ [48 + n % 8]

/-- Octal digit characters, as the Python format `f"{n:o}"`. -/
def octDigits (n : Nat) : List Nat := octDigitsAux (n + 1) n

/-- The `os.stat` fields that `add_to_index` reads. -/
structure StatInfo where
  st_ctime : Nat
  st_mtime : Nat
  st_dev : Nat
  st_ino : Nat
  st_mode : Nat
  st_uid : Nat
  st_gid : Nat
  st_size : Nat

namespace IndexManager

/-- The entry `add_to_index` builds for one file: metadata masked to 32
bits, and — as in the source — the `sha1` field holds
`sha1_hash.encode()`, i.e. the 40 ASCII characters of the hex digest, not
the raw 20 digest bytes. -/
def entryFromStat (path shaHex : Bytes) (st : StatInfo) : IndexEntry :=
  { ctime_s := st.st_ctime % 4294967296, ctime_n := 0,
    mtime_s := st.st_mtime % 4294967296, mtime_n := 0,
    dev := st.st_dev % 4294967296, ino := st.st_ino % 4294967296,
    mode := st.st_mode % 4294967296, uid := st.st_uid % 4294967296,
    gid := st.st_gid % 4294967296, size := st.st_size % 4294967296,
    sha1 := shaHex, flags := 0, path := path }

/-- Insertion-order-preserving dictionary update (`entries[path] = entry`
on a Python `dict`). -/
def dictUpsert (d : List (Bytes × IndexEntry)) (k : Bytes) (v : IndexEntry) :
    List (Bytes × IndexEntry) :=
  if (d.lookup k).isSome then
    d.map (fun p => if p.1 = k then (k, v) else p)
  else d ++ [(k, v)]

/-- The per-path loop of `add_to_index`: store the blob, build the entry,
upsert it into the path-keyed dictionary. -/
def addLoop (compress : Bytes → Bytes) :
    List (Bytes × Bytes × StatInfo) → ObjStore →
    List (Bytes × IndexEntry) → ObjStore × List (Bytes × IndexEntry)
  | [], S, d => (S, d)
  | (path, data, st) :: fs, S, d =>
    let r := ObjectStore.store_object compress data (asc "blob") S
    addLoop compress fs r.2 (dictUpsert d path (entryFromStat path r.1 st))

/-- Model of `add_to_index`: read the index into a path-keyed dictionary,
store each file as a blob and upsert its entry, then write the index
once.  Files are given as `(path, contents, stat)` triples; the result is
the updated object store and the new index file bytes. -/
def add_to_index (compress : Bytes → Bytes)
    (files : List (Bytes × Bytes × StatInfo)) (S : ObjStore)
    (idxFile : Option Bytes) : Option (ObjStore × Bytes) :=
  match read_index idxFile with
  | Except.error _ => none
  | Except.ok entries0 =>
    let d0 := entries0.foldl (fun d e => dictUpsert d e.path e) []
    let r := addLoop compress files S d0
    (write_index (r.2.map (·.2))).map fun bs => (r.1, bs)

/-- Model of `list_index` (`status`): one printed line per entry, as the
triple (octal mode, `entry.sha1.hex()`, path). -/
def list_index (idxFile : Option Bytes) :
    Option (List (Bytes × Bytes × Bytes)) :=
  match read_index idxFile with
  | Except.error _ => none
  | Except.ok entries =>
    some (entries.map fun e => (octDigits e.mode, bytesToHex e.sha1, e.path))

end IndexManager

/-- Stat metadata for the C5 scenario file `a.txt` (mode `0o100644`,
size 5). -/
def c5Stat : StatInfo := ⟨0, 0, 0, 0, 33188, 0, 0, 5⟩

/-- Claim C5 evaluated: after `add(["a.txt"])` with content `"hello"` on
an empty repository, the store does gain exactly one blob whose hash is
`SHA1("blob 5\x00hello") = b6fc4c62…`, but `status` prints
`6236666334633632306236376439356639353361` for it — the hex encoding of
the ASCII bytes of the first 20 hex digits (the `20s` field truncates the
40-byte `sha1_hash.encode()`), not that hash.  This refutes the second
half of the claim. -/
theorem c5_add_status_hash_mismatch :
    (IndexManager.add_to_index id [(asc "a.txt", asc "hello", c5Stat)] []
        none).map (fun r => r.1) =
      some [(asc "b6fc4c620b67d95f953a5c1c1230aaab5db5a1b0",
        asc "blob 5" ++ 0 :: asc "hello")] ∧
    (IndexManager.add_to_index id [(asc "a.txt", asc "hello", c5Stat)] []
        none).bind (fun r => IndexManager.list_index (some r.2)) =
      some [(asc "100644",
        asc "6236666334633632306236376439356639353361", asc "a.txt")] ∧
    asc "6236666334633632306236376439356639353361" ≠
      asc "b6fc4c620b67d95f953a5c1c1230aaab5db5a1b0" := by
  refine ⟨by decide, by decide, by decide⟩

/-- Claim C9: `read_index` returns the empty sequence (not an error) when
no index file exists; on an existing file (with the 12 header bytes
present) it fails with the signature `ValueError` when the magic is not
`DIRC`, with the version `ValueError` when the version is not 2, and
otherwise proceeds past validation into entry parsing. -/
theorem c9_read_index_validation :
    IndexManager.read_index none = Except.ok [] ∧
    (∀ data : Bytes, 12 ≤ data.length → pySlice data 0 4 ≠ asc "DIRC" →
      IndexManager.read_index (some data) =
        Except.error IndexManager.IndexReadError.badSignature) ∧
    (∀ data : Bytes, 12 ≤ data.length → pySlice data 0 4 = asc "DIRC" →
      beVal (pySlice data 4 8) ≠ 2 →
      IndexManager.read_index (some data) =
        Except.error IndexManager.IndexReadError.badVersion) ∧
    (∀ data : Bytes, 12 ≤ data.length → pySlice data 0 4 = asc "DIRC" →
      beVal (pySlice data 4 8) = 2 →
      IndexManager.read_index (some data) =
        IndexManager.parseEntriesAux (data.length + 1) (data.drop 12)) := by
  refine ⟨rfl, ?_, ?_, ?_⟩
  · intro data h12 hsig
    simp only [IndexManager.read_index]
    rw [if_neg (by omega), if_pos hsig]
  · intro data h12 hsig hver
    simp only [IndexManager.read_index]
    rw [if_neg (by omega), if_neg (by simp [hsig]), if_pos hver]
  · intro data h12 hsig hver
    simp only [IndexManager.read_index]
    rw [if_neg (by omega), if_neg (by simp [hsig]), if_neg (by simp [hver])]

/-- Witness for C9 at concrete inputs: a missing file, a bad signature, a
bad version, and a valid empty index header. -/
theorem c9_witness :
    IndexManager.read_index none = Except.ok [] ∧
    IndexManager.read_index
        (some (asc "XIRC" ++ beBytes 4 2 ++ beBytes 4 0)) =
      Except.error IndexManager.IndexReadError.badSignature ∧
    IndexManager.read_index
        (some (asc "DIRC" ++ beBytes 4 3 ++ beBytes 4 0)) =
      Except.error IndexManager.IndexReadError.badVersion ∧
    IndexManager.read_index
        (some (asc "DIRC" ++ beBytes 4 2 ++ beBytes 4 0)) =
      IndexManager.parseEntriesAux 13
        ((asc "DIRC" ++ beBytes 4 2 ++ beBytes 4 0).drop 12) :=
  ⟨c9_read_index_validation.1,
   c9_read_index_validation.2.1 _ (by decide) (by decide),
   c9_read_index_validation.2.2.1 _ (by decide) (by decide) (by decide),
   by
    have := c9_read_index_validation.2.2.2
      (asc "DIRC" ++ beBytes 4 2 ++ beBytes 4 0) (by decide) (by decide)
      (by decide)
    simpa using this⟩

/-! ## Commit construction (`commit_manager.py`). -/

namespace CommitManager

/-- Model of `write_tree`: concatenate
`"<octal mode> <path>\x00" + sha1` records over the given index entries
and store the result as a `tree` object. -/
def write_tree (compress : Bytes → Bytes) (entries : List IndexEntry)
    (S : ObjStore) : Bytes × ObjStore :=
  let tree_data :=
    (entries.map fun e =>
      (octDigits e.mode ++ asc " " ++ e.path) ++ 0 :: e.sha1).flatten
  ObjectStore.store_object compress tree_data (asc "tree") S

/-- Model of `get_latest_commit`: `none` models a missing ref file;
otherwise the file content is stripped. -/
def get_latest_commit (ref : Option Bytes) : Option Bytes := ref.map pyStrip

/-- Model of `update_ref`: the ref file is rewritten with the hash plus a
newline. -/
def update_ref (h : Bytes) : Bytes := h ++ asc "\n"

/-- Model of `"\n".join`. -/
def joinNl : List Bytes → Bytes
  | [] => []
  | [l] => l
  | l :: ls => l ++ 10 :: joinNl ls

/-- The `commit_lines` list built by `create_commit`.  The parent slot is
the conditional expression `f"parent {...}" if parent_commit else ""`
(Python truthiness: `None` and the empty string both yield the empty
line). -/
def commit_lines (tree_hash : Bytes) (parent : Option Bytes)
    (author authorTime message : Bytes) : List Bytes :=
  [asc "tree " ++ tree_hash,
   match parent with
   | some p => if p.isEmpty then [] else asc "parent " ++ p
   | none => [],
   asc "author " ++ author ++ asc " " ++ authorTime,
   asc "committer " ++ author ++ asc " " ++ authorTime,
   [],
   message,
   []]

/-- The commit object body: the joined commit lines. -/
def commit_body (tree_hash : Bytes) (parent : Option Bytes)
    (author authorTime message : Bytes) : Bytes :=
  joinNl (commit_lines tree_hash parent author authorTime message)

/-- Model of `create_commit`: build the tree, read the parent from the
ref, store the commit body, and rewrite the ref.  Returns the commit
hash, the updated store, and the new ref file content. -/
def create_commit (compress : Bytes → Bytes) (entries : List IndexEntry)
    (message author authorTime : Bytes) (S : ObjStore)
    (ref : Option Bytes) : Bytes × ObjStore × Bytes :=
  let t := write_tree compress entries S
  let body := commit_body t.1 (get_latest_commit ref) author authorTime
    message
  let r := ObjectStore.store_object compress body (asc "commit") t.2
  (r.1, r.2, update_ref r.1)

end CommitManager

/-! ## Lemmas about hex digests, stripping and line splitting. -/

theorem hexDigit_range {n : Nat} (h : n < 16) :
    (48 ≤ hexDigit n ∧ hexDigit n ≤ 57) ∨
    (97 ≤ hexDigit n ∧ hexDigit n ≤ 102) := by
  unfold hexDigit
  split <;> omega

theorem bytesToHex_mem {c : Nat} {b : Bytes} (hc : c ∈ bytesToHex b) :
    (48 ≤ c ∧ c ≤ 57) ∨ (97 ≤ c ∧ c ≤ 102) := by
  unfold bytesToHex at hc
  rw [List.mem_flatten] at hc
  obtain ⟨l, hl, hcl⟩ := hc
  rw [List.mem_map] at hl
  obtain ⟨x, _, rfl⟩ := hl
  simp only [List.mem_cons, List.mem_singleton, List.not_mem_nil,
    or_false] at hcl
  rcases hcl with rfl | rfl
  · exact hexDigit_range (Nat.mod_lt _ (by omega))
  · exact hexDigit_range (Nat.mod_lt _ (by omega))

theorem bytesToHex_not_ws {c : Nat} {b : Bytes} (hc : c ∈ bytesToHex b) :
    isWsByte c = false := by
  have := bytesToHex_mem hc
  simp [isWsByte]
  omega

theorem bytesToHex_not_break {c : Nat} {b : Bytes} (hc : c ∈ bytesToHex b) :
    isLineBreak c = false := by
  have := bytesToHex_mem hc
  simp [isLineBreak]
  omega

theorem bytesToHex_length (b : Bytes) :
    (bytesToHex b).length = 2 * b.length := by
  induction b with
  | nil => rfl
  | cons x b ih =>
    simp only [bytesToHex, List.map_cons, List.flatten_cons,
      List.length_append, List.length_cons, List.length_nil] at *
    omega

theorem sha1Hex_length (m : Bytes) : (sha1Hex m).length = 40 := by
  unfold sha1Hex
  rw [bytesToHex_length, sha1Bytes_length]

theorem sha1Hex_ne_nil (m : Bytes) : (sha1Hex m).isEmpty = false := by
  have h := sha1Hex_length m
  cases hs : sha1Hex m with
  | nil => rw [hs] at h; simp at h
  | cons a b => rfl

theorem pyStrip_append_nl {l : Bytes}
    (hl : ∀ c ∈ l, isWsByte c = false) : pyStrip (l ++ [10]) = l := by
  cases l with
  | nil => decide
  | cons c cs =>
    unfold pyStrip
    have hc : isWsByte c = false := hl c (by simp)
    have h1 : (c :: cs ++ [10]).dropWhile (isWsByte ·) = c :: cs ++ [10] := by
      simp [List.dropWhile_cons, hc]
    rw [h1]
    have h2 : (c :: cs ++ [10]).reverse = 10 :: (c :: cs).reverse := by
      rw [show c :: cs ++ [10] = (c :: cs) ++ [10] from rfl,
        List.reverse_append]
      rfl
    rw [h2]
    have h3 : List.dropWhile (isWsByte ·) (10 :: (c :: cs).reverse) =
        List.dropWhile (isWsByte ·) ((c :: cs).reverse) := by
      simp [List.dropWhile_cons, isWsByte]
    rw [h3]
    have h4 : List.dropWhile (isWsByte ·) ((c :: cs).reverse) =
        (c :: cs).reverse := by
      cases hrev : (c :: cs).reverse with
      | nil => simp at hrev
      | cons x xs =>
        have hx : x ∈ c :: cs := by
          have hmem : x ∈ (c :: cs).reverse := by rw [hrev]; simp
          rw [List.mem_reverse] at hmem
          exact hmem
        simp [List.dropWhile_cons, hl x hx]
    rw [h4, List.reverse_reverse]

theorem splitLinesAux_line : ∀ (l : Bytes) (acc rest : Bytes),
    (∀ c ∈ l, isLineBreak c = false) →
    splitLinesAux (l ++ 10 :: rest) acc =
      (acc.reverse ++ l) :: splitLinesAux rest [] := by
  intro l
  induction l with
  | nil =>
    intro acc rest _
    cases rest with
    | nil => simp [splitLinesAux, isLineBreak]
    | cons r rs => simp [splitLinesAux, isLineBreak]
  | cons c l ih =>
    intro acc rest hbf
    have hc : isLineBreak c = false := hbf c (by simp)
    have hc13 : ¬(c = 13) := by
      intro h
      rw [h] at hc
      simp [isLineBreak] at hc
    obtain ⟨d, t, hdt⟩ : ∃ d t, l ++ 10 :: rest = d :: t := by
      cases l with
      | nil => exact ⟨10, rest, rfl⟩
      | cons x xs => exact ⟨x, xs ++ 10 :: rest, rfl⟩
    have hstep : splitLinesAux ((c :: l) ++ 10 :: rest) acc =
        splitLinesAux (l ++ 10 :: rest) (c :: acc) := by
      rw [List.cons_append, hdt]
      simp only [splitLinesAux]
      rw [if_neg (by simp [hc13]), if_neg (by simp [hc])]
    rw [hstep, ih (c :: acc) rest (fun x hx => hbf x (by simp [hx]))]
    simp

theorem mem_splitLinesAux_nl : ∀ (n : Nat) (s acc l : Bytes),
    s.length ≤ n → l ∈ splitLinesAux (s ++ [10]) acc →
    l ∈ splitLinesAux s acc ∨ l = [] := by
  intro n
  induction n with
  | zero =>
    intro s acc l hlen hmem
    have hs : s = [] := by
      cases s with
      | nil => rfl
      | cons a b => simp at hlen
    subst hs
    simp only [List.nil_append] at hmem
    have : splitLinesAux [10] acc = [acc.reverse] := by
      simp [splitLinesAux, isLineBreak]
    rw [this] at hmem
    simp only [List.mem_singleton] at hmem
    subst hmem
    by_cases hacc : acc = []
    · subst hacc; right; rfl
    · left
      simp [splitLinesAux, hacc]
  | succ n ih =>
    intro s acc l hlen hmem
    cases s with
    | nil =>
      have : splitLinesAux ([] ++ [10]) acc = [acc.reverse] := by
        simp [splitLinesAux, isLineBreak]
      rw [this] at hmem
      simp only [List.mem_singleton] at hmem
      subst hmem
      by_cases hacc : acc = []
      · subst hacc; right; rfl
      · left
        simp [splitLinesAux, hacc]
    | cons c cs =>
      cases cs with
      | nil =>
        by_cases hc13 : c = 13
        · subst hc13
          have hL : splitLinesAux ([13] ++ [10]) acc = [acc.reverse] := by
            simp [splitLinesAux]
          have hR : splitLinesAux [13] acc = [acc.reverse] := by
            simp [splitLinesAux, isLineBreak]
          rw [hL] at hmem
          rw [hR]
          exact Or.inl hmem
        · by_cases hbr : isLineBreak c = true
          · have hL : splitLinesAux ([c] ++ [10]) acc =
                [acc.reverse, []] := by
              simp only [List.cons_append, List.nil_append, splitLinesAux]
              rw [if_neg (by simp [hc13]), if_pos hbr]
              simp [splitLinesAux, isLineBreak]
            have hR : splitLinesAux [c] acc = [acc.reverse] := by
              simp [splitLinesAux, hbr]
            rw [hL] at hmem
            rw [hR]
            rcases List.mem_cons.mp hmem with rfl | h
            · exact Or.inl (by simp)
            · simp only [List.mem_singleton] at h
              exact Or.inr h
          · have hL : splitLinesAux ([c] ++ [10]) acc =
                [(c :: acc).reverse] := by
              simp only [List.cons_append, List.nil_append, splitLinesAux]
              rw [if_neg (by simp [hc13]), if_neg hbr]
              simp [splitLinesAux, isLineBreak]
            have hR : splitLinesAux [c] acc = [(c :: acc).reverse] := by
              simp only [splitLinesAux]
              rw [if_neg hbr]
            rw [hL] at hmem
            rw [hR]
            exact Or.inl hmem
      | cons d t =>
        have hshape : (c :: d :: t) ++ [10] = c :: d :: (t ++ [10]) := rfl
        by_cases hcd : c = 13 ∧ d = 10
        · have hL : splitLinesAux ((c :: d :: t) ++ [10]) acc =
              acc.reverse :: splitLinesAux (t ++ [10]) [] := by
            rw [hshape]
            simp only [splitLinesAux]
            rw [if_pos hcd]
          have hR : splitLinesAux (c :: d :: t) acc =
              acc.reverse :: splitLinesAux t [] := by
            simp only [splitLinesAux]
            rw [if_pos hcd]
          rw [hL] at hmem
          rw [hR]
          rcases List.mem_cons.mp hmem with rfl | h
          · exact Or.inl (by simp)
          · rcases ih t [] l (by simp at hlen ⊢; omega) h with h2 | h2
            · exact Or.inl (by simp [h2])
            · exact Or.inr h2
        · by_cases hbr : isLineBreak c = true
          · have hL : splitLinesAux ((c :: d :: t) ++ [10]) acc =
                acc.reverse :: splitLinesAux ((d :: t) ++ [10]) [] := by
              rw [hshape]
              simp only [splitLinesAux]
              rw [if_neg hcd, if_pos hbr, List.cons_append]
            have hR : splitLinesAux (c :: d :: t) acc =
                acc.reverse :: splitLinesAux (d :: t) [] := by
              simp only [splitLinesAux]
              rw [if_neg hcd, if_pos hbr]
            rw [hL] at hmem
            rw [hR]
            rcases List.mem_cons.mp hmem with rfl | h
            · exact Or.inl (by simp)
            · rcases ih (d :: t) [] l (by simp at hlen ⊢; omega) h with
                h2 | h2
              · exact Or.inl (by simp [h2])
              · exact Or.inr h2
          · have hL : splitLinesAux ((c :: d :: t) ++ [10]) acc =
                splitLinesAux ((d :: t) ++ [10]) (c :: acc) := by
              rw [hshape]
              simp only [splitLinesAux]
              rw [if_neg hcd, if_neg hbr, List.cons_append]
            have hR : splitLinesAux (c :: d :: t) acc =
                splitLinesAux (d :: t) (c :: acc) := by
              simp only [splitLinesAux]
              rw [if_neg hcd, if_neg hbr]
            rw [hL] at hmem
            rw [hR]
            exact ih (d :: t) (c :: acc) l (by simp at hlen ⊢; omega) hmem

theorem mem_splitLines_nl {s l : Bytes}
    (h : l ∈ pySplitLines (s ++ [10])) : l ∈ pySplitLines s ∨ l = [] :=
  mem_splitLinesAux_nl s.length s [] l (le_refl _) h

/-! ## Claim C8: parent lines of the first and second commit. -/

theorem store_object_fst (compress : Bytes → Bytes) (data ty : Bytes)
    (S : ObjStore) : (ObjectStore.store_object compress data ty S).1 =
      (ObjectStore.compute_hash data ty).1 := by
  simp only [ObjectStore.store_object]
  cases List.lookup (ObjectStore.compute_hash data ty).1 S <;> rfl

theorem compute_hash_fst (data ty : Bytes) :
    (ObjectStore.compute_hash data ty).1 =
      sha1Hex ((ty ++ asc " " ++ decDigits data.length) ++ 0 :: data) := rfl

theorem create_commit_hash_hex (compress : Bytes → Bytes)
    (entries : List IndexEntry) (message author authorTime : Bytes)
    (S : ObjStore) (ref : Option Bytes) :
    ∃ m, (CommitManager.create_commit compress entries message author
      authorTime S ref).1 = sha1Hex m := by
  have h : (CommitManager.create_commit compress entries message author
      authorTime S ref).1 =
      (ObjectStore.store_object compress
        (CommitManager.commit_body
          (CommitManager.write_tree compress entries S).1
          (CommitManager.get_latest_commit ref) author authorTime message)
        (asc "commit")
        (CommitManager.write_tree compress entries S).2).1 := rfl
  rw [h, store_object_fst, compute_hash_fst]
  exact ⟨_, rfl⟩

theorem write_tree_hash_hex (compress : Bytes → Bytes)
    (entries : List IndexEntry) (S : ObjStore) :
    ∃ m, (CommitManager.write_tree compress entries S).1 = sha1Hex m := by
  have h : (CommitManager.write_tree compress entries S).1 =
      (ObjectStore.store_object compress
        ((entries.map fun e =>
          (octDigits e.mode ++ asc " " ++ e.path) ++ 0 :: e.sha1).flatten)
        (asc "tree") S).1 := rfl
  rw [h, store_object_fst, compute_hash_fst]
  exact ⟨_, rfl⟩

theorem sha1Hex_not_break {c : Nat} {m : Bytes} (hc : c ∈ sha1Hex m) :
    isLineBreak c = false :=
  bytesToHex_not_break (by simpa [sha1Hex] using hc)

theorem sha1Hex_not_ws {c : Nat} {m : Bytes} (hc : c ∈ sha1Hex m) :
    isWsByte c = false :=
  bytesToHex_not_ws (by simpa [sha1Hex] using hc)

theorem isPrefixOf_append_self : ∀ (l x : Bytes),
    l.isPrefixOf (l ++ x) = true := by
  intro l x
  induction l with
  | nil => simp
  | cons c l ih => simp [List.isPrefixOf, ih]

theorem parent_isPrefixOf_ne {x : Nat} (hx : x ≠ 112) (X : Bytes) :
    (asc "parent ").isPrefixOf (x :: X) = false := by
  rw [show asc "parent " = 112 :: asc "arent " from rfl]
  have hb : (112 == x) = false := by
    simp
    omega
  simp [List.isPrefixOf, hb]

theorem parent_isPrefixOf_nil :
    (asc "parent ").isPrefixOf ([] : Bytes) = false := by decide

theorem filter_eq_nil_of {p : Bytes → Bool} : ∀ l : List Bytes,
    (∀ x ∈ l, p x = false) → l.filter p = [] := by
  intro l
  induction l with
  | nil => intro _; rfl
  | cons a l ih =>
    intro h
    simp [List.filter_cons, h a (by simp), ih
      (fun x hx => h x (by simp [hx]))]

/-- Break-free property of an author or committer line. -/
theorem authorLine_break_free {pre author authorTime : Bytes}
    (hpre : ∀ c ∈ pre, isLineBreak c = false)
    (ha : ∀ c ∈ author, isLineBreak c = false)
    (ht : ∀ c ∈ authorTime, isLineBreak c = false) :
    ∀ c ∈ pre ++ author ++ asc " " ++ authorTime, isLineBreak c = false := by
  have hsp : ∀ c ∈ asc " ", isLineBreak c = false := by decide
  intro c hc
  simp only [List.append_assoc, List.mem_append] at hc
  rcases hc with h | h | h | h
  · exact hpre c h
  · exact ha c h
  · exact hsp c h
  · exact ht c h

/-- Lines of a commit body: the four header lines, the blank separator,
then the lines of `message ++ "\n"`.  Stated for an arbitrary parent
slot line. -/
theorem commit_body_lines (th slot author authorTime message : Bytes)
    (hth : ∀ c ∈ th, isLineBreak c = false)
    (hslot : ∀ c ∈ slot, isLineBreak c = false)
    (ha : ∀ c ∈ author, isLineBreak c = false)
    (ht : ∀ c ∈ authorTime, isLineBreak c = false) :
    pySplitLines ((asc "tree " ++ th) ++ 10 :: (slot ++ 10 ::
      ((asc "author " ++ author ++ asc " " ++ authorTime) ++ 10 ::
      ((asc "committer " ++ author ++ asc " " ++ authorTime) ++ 10 ::
      ([] ++ 10 :: (message ++ 10 :: [])))))) =
    (asc "tree " ++ th) :: slot ::
      (asc "author " ++ author ++ asc " " ++ authorTime) ::
      (asc "committer " ++ author ++ asc " " ++ authorTime) ::
      [] :: pySplitLines (message ++ [10]) := by
  have htree : ∀ c ∈ asc "tree " ++ th, isLineBreak c = false := by
    have hconst : ∀ c ∈ asc "tree ", isLineBreak c = false := by decide
    intro c hc
    rcases List.mem_append.mp hc with h | h
    · exact hconst c h
    · exact hth c h
  have hauth : ∀ c ∈ asc "author " ++ author ++ asc " " ++ authorTime,
      isLineBreak c = false :=
    authorLine_break_free (by decide) ha ht
  have hcomm : ∀ c ∈ asc "committer " ++ author ++ asc " " ++ authorTime,
      isLineBreak c = false :=
    authorLine_break_free (by decide) ha ht
  unfold pySplitLines
  rw [splitLinesAux_line _ _ _ htree, splitLinesAux_line _ _ _ hslot,
    splitLinesAux_line _ _ _ hauth, splitLinesAux_line _ _ _ hcomm,
    splitLinesAux_line _ _ _ (by intro c hc; simp at hc)]
  simp

/-- Claim C8: the body of a first commit (no existing ref) contains no
line starting with `"parent "`, and the body of a second commit contains
exactly one such line, carrying exactly the first commit's hash.  The
commit bodies are the objects stored by the two `create_commit` calls
(`create_commit` stores `commit_body` of the written tree and the parent
read from the ref, by definition). -/
theorem c8_parent_lines (compress : Bytes → Bytes)
    (entries1 entries2 : List IndexEntry)
    (message1 message2 author authorTime : Bytes) (S0 : ObjStore)
    (ha : ∀ c ∈ author, isLineBreak c = false)
    (ht : ∀ c ∈ authorTime, isLineBreak c = false)
    (hm1 : ∀ l ∈ pySplitLines message1,
      (asc "parent ").isPrefixOf l = false)
    (hm2 : ∀ l ∈ pySplitLines message2,
      (asc "parent ").isPrefixOf l = false) :
    (∀ l ∈ pySplitLines (CommitManager.commit_body
        (CommitManager.write_tree compress entries1 S0).1
        (CommitManager.get_latest_commit none) author authorTime message1),
      (asc "parent ").isPrefixOf l = false) ∧
    (pySplitLines (CommitManager.commit_body
        (CommitManager.write_tree compress entries2
          (CommitManager.create_commit compress entries1 message1 author
            authorTime S0 none).2.1).1
        (CommitManager.get_latest_commit
          (some (CommitManager.create_commit compress entries1 message1
            author authorTime S0 none).2.2))
        author authorTime message2)).filter
      (fun l => (asc "parent ").isPrefixOf l) =
      [asc "parent " ++ (CommitManager.create_commit compress entries1
        message1 author authorTime S0 none).1] := by
  obtain ⟨mt1, hmt1⟩ := write_tree_hash_hex compress entries1 S0
  obtain ⟨m1, hm1h⟩ := create_commit_hash_hex compress entries1 message1
    author authorTime S0 none
  obtain ⟨mt2, hmt2⟩ := write_tree_hash_hex compress entries2
    (CommitManager.create_commit compress entries1 message1 author
      authorTime S0 none).2.1
  constructor
  · -- first commit: no parent line
    have hbody : CommitManager.commit_body
        (CommitManager.write_tree compress entries1 S0).1
        (CommitManager.get_latest_commit none) author authorTime message1 =
        (asc "tree " ++ (CommitManager.write_tree compress entries1 S0).1)
          ++ 10 :: (([] : Bytes) ++ 10 ::
          ((asc "author " ++ author ++ asc " " ++ authorTime) ++ 10 ::
          ((asc "committer " ++ author ++ asc " " ++ authorTime) ++ 10 ::
          ([] ++ 10 :: (message1 ++ 10 :: []))))) := rfl
    rw [hbody, commit_body_lines _ _ _ _ _
      (by rw [hmt1]; intro c hc; exact sha1Hex_not_break hc)
      (by intro c hc; simp at hc) ha ht]
    intro l hl
    rw [hmt1] at hl
    simp only [List.mem_cons] at hl
    rcases hl with rfl | rfl | rfl | rfl | rfl | hl
    · rw [show asc "tree " ++ sha1Hex mt1 =
        116 :: (asc "ree " ++ sha1Hex mt1) from rfl]
      exact parent_isPrefixOf_ne (by omega) _
    · exact parent_isPrefixOf_nil
    · rw [show asc "author " ++ author ++ asc " " ++ authorTime =
        97 :: (asc "uthor " ++ author ++ asc " " ++ authorTime) from rfl]
      exact parent_isPrefixOf_ne (by omega) _
    · rw [show asc "committer " ++ author ++ asc " " ++ authorTime =
        99 :: (asc "ommitter " ++ author ++ asc " " ++ authorTime) from rfl]
      exact parent_isPrefixOf_ne (by omega) _
    · exact parent_isPrefixOf_nil
    · rcases mem_splitLines_nl hl with h | rfl
      · exact hm1 l h
      · exact parent_isPrefixOf_nil
  · -- second commit: exactly one parent line, carrying the first hash
    have href : (CommitManager.create_commit compress entries1 message1
        author authorTime S0 none).2.2 =
        (CommitManager.create_commit compress entries1 message1 author
          authorTime S0 none).1 ++ [10] := rfl
    have hp2 : CommitManager.get_latest_commit
        (some (CommitManager.create_commit compress entries1 message1
          author authorTime S0 none).2.2) =
        some (CommitManager.create_commit compress entries1 message1
          author authorTime S0 none).1 := by
      show some (pyStrip _) = _
      rw [href, hm1h, pyStrip_append_nl (fun c hc => sha1Hex_not_ws hc)]
    rw [hp2]
    have hne : ((CommitManager.create_commit compress entries1 message1
        author authorTime S0 none).1).isEmpty = false := by
      rw [hm1h]
      exact sha1Hex_ne_nil m1
    have hbody : CommitManager.commit_body
        (CommitManager.write_tree compress entries2
          (CommitManager.create_commit compress entries1 message1 author
            authorTime S0 none).2.1).1
        (some (CommitManager.create_commit compress entries1 message1
          author authorTime S0 none).1) author authorTime message2 =
        (asc "tree " ++ (CommitManager.write_tree compress entries2
          (CommitManager.create_commit compress entries1 message1 author
            authorTime S0 none).2.1).1)
          ++ 10 :: ((asc "parent " ++ (CommitManager.create_commit compress
            entries1 message1 author authorTime S0 none).1) ++ 10 ::
          ((asc "author " ++ author ++ asc " " ++ authorTime) ++ 10 ::
          ((asc "committer " ++ author ++ asc " " ++ authorTime) ++ 10 ::
          ([] ++ 10 :: (message2 ++ 10 :: []))))) := by
      unfold CommitManager.commit_body CommitManager.commit_lines
      rw [show (match some (CommitManager.create_commit compress entries1
          message1 author authorTime S0 none).1 with
        | some p => if p.isEmpty then ([] : Bytes) else asc "parent " ++ p
        | none => ([] : Bytes)) =
        if ((CommitManager.create_commit compress entries1 message1 author
          authorTime S0 none).1).isEmpty then ([] : Bytes)
        else asc "parent " ++ (CommitManager.create_commit compress
          entries1 message1 author authorTime S0 none).1 from rfl, hne]
      rfl
    rw [hbody, commit_body_lines _ _ _ _ _
      (by rw [hmt2]; intro c hc; exact sha1Hex_not_break hc)
      (by
        have hconst : ∀ c ∈ asc "parent ", isLineBreak c = false := by
          decide
        intro c hc
        rcases List.mem_append.mp hc with h | h
        · exact hconst c h
        · rw [hm1h] at h; exact sha1Hex_not_break h) ha ht]
    have hT : (asc "parent ").isPrefixOf
        (asc "tree " ++ (CommitManager.write_tree compress entries2
          (CommitManager.create_commit compress entries1 message1 author
            authorTime S0 none).2.1).1) = false := by
      rw [show asc "tree " ++ (CommitManager.write_tree compress entries2
        (CommitManager.create_commit compress entries1 message1 author
          authorTime S0 none).2.1).1 =
        116 :: (asc "ree " ++ (CommitManager.write_tree compress entries2
          (CommitManager.create_commit compress entries1 message1 author
            authorTime S0 none).2.1).1) from rfl]
      exact parent_isPrefixOf_ne (by omega) _
    have hP : (asc "parent ").isPrefixOf
        (asc "parent " ++ (CommitManager.create_commit compress entries1
          message1 author authorTime S0 none).1) = true :=
      isPrefixOf_append_self _ _
    have hA : (asc "parent ").isPrefixOf
        (asc "author " ++ author ++ asc " " ++ authorTime) = false := by
      rw [show asc "author " ++ author ++ asc " " ++ authorTime =
        97 :: (asc "uthor " ++ author ++ asc " " ++ authorTime) from rfl]
      exact parent_isPrefixOf_ne (by omega) _
    have hC : (asc "parent ").isPrefixOf
        (asc "committer " ++ author ++ asc " " ++ authorTime) = false := by
      rw [show asc "committer " ++ author ++ asc " " ++ authorTime =
        99 :: (asc "ommitter " ++ author ++ asc " " ++ authorTime) from rfl]
      exact parent_isPrefixOf_ne (by omega) _
    have hM : (pySplitLines (message2 ++ [10])).filter
        (fun l => (asc "parent ").isPrefixOf l) = [] := by
      apply filter_eq_nil_of
      intro x hx
      rcases mem_splitLines_nl hx with h | rfl
      · exact hm2 x h
      · exact parent_isPrefixOf_nil
    simp only [List.filter_cons, hT, hP, hA, hC, parent_isPrefixOf_nil,
      Bool.false_eq_true, if_false, if_true, hM]

/-- Witness for C8 at concrete inputs: two commits with empty index,
simple messages, author and timestamp, starting from an empty store and
no ref. -/
theorem c8_witness :
    (∀ l ∈ pySplitLines (CommitManager.commit_body
        (CommitManager.write_tree id [] []).1
        (CommitManager.get_latest_commit none) (asc "A <a@b>")
        (asc "1700000000 -0500") (asc "first")),
      (asc "parent ").isPrefixOf l = false) ∧
    (pySplitLines (CommitManager.commit_body
        (CommitManager.write_tree id []
          (CommitManager.create_commit id [] (asc "first") (asc "A <a@b>")
            (asc "1700000000 -0500") [] none).2.1).1
        (CommitManager.get_latest_commit
          (some (CommitManager.create_commit id [] (asc "first")
            (asc "A <a@b>") (asc "1700000000 -0500") [] none).2.2))
        (asc "A <a@b>") (asc "1700000000 -0500")
        (asc "second"))).filter
      (fun l => (asc "parent ").isPrefixOf l) =
      [asc "parent " ++ (CommitManager.create_commit id [] (asc "first")
        (asc "A <a@b>") (asc "1700000000 -0500") [] none).1] :=
  c8_parent_lines id [] [] (asc "first") (asc "second") (asc "A <a@b>")
    (asc "1700000000 -0500") [] (by decide) (by decide) (by decide)
    (by decide)

/-! ## Remote manager (`remote_manager.py`): pack building and ref
discovery. -/

/-- Lexicographic Boolean order on byte strings (Python `str`
comparison, used by `sorted`). -/
def bytesLe : Bytes → Bytes → Bool
  | [], _ => true
  | _ :: _, [] => false
  | a :: as, b :: bs =>
    if a < b then true else if b < a then false else bytesLe as bs

/-- Insert into a sorted list (used to model Python `sorted`). -/
def insertSorted (x : Bytes) : List Bytes → List Bytes
  | [] => [x]
  | y :: ys => if bytesLe x y then x :: y :: ys else y :: insertSorted x ys

/-- Model of Python `sorted` on byte strings (insertion sort by the
lexicographic order). -/
def sortBytes : List Bytes → List Bytes
  | [] => []
  | x :: xs => insertSorted x (sortBytes xs)

/-- Split on a separator byte keeping empty fields
(Python `bytes.split(sep)`). -/
def splitOnByte (sep : Nat) : Bytes → List Bytes
  | [] => [[]]
  | c :: rest =>
    if c = sep then [] :: splitOnByte sep rest
    else
      match splitOnByte sep rest with
      | [] => [[c]]
      | l :: ls => (c :: l) :: ls

namespace RemoteManager

/-- Model of `remote_manager.retrieve_object`: like the object-store
version but the object type is the first whitespace token of the header
(`header.decode().split()[0]`). -/
def retrieve_object (decompress : Bytes → Bytes) (h : Bytes)
    (S : ObjStore) : Option (Bytes × Bytes) :=
  match S.lookup h with
  | none => none
  | some comp =>
    match splitFirstNul (decompress comp) with
    | none => none
    | some (header, data) =>
      match wsSplit header with
      | [] => none
      | t :: _ => some (t, data)

/-- The `{"commit": 1, "tree": 2, "blob": 3}` lookup of `pack_object`
(`none` models the `KeyError`). -/
def typeNum (obj_type : Bytes) : Option Nat :=
  if obj_type = asc "commit" then some 1
  else if obj_type = asc "tree" then some 2
  else if obj_type = asc "blob" then some 3
  else none

/-- The length-continuation loop of `pack_object`
(`while size: header.append(size & 0x7f | 0x80); size >>= 7`),
fuel-structural. -/
def packSizeBytesAux : Nat → Nat → Bytes
  | 0, _ => []
  | fuel + 1, s =>
    if s = 0 then [] else (s % 128 ||| 128) :: packSizeBytesAux fuel (s / 128)

/-- The byte sequence the size loop appends for a given shifted size. -/
def packSizeBytes (s : Nat) : Bytes := packSizeBytesAux (s + 1) s

/-- The per-object record header of `pack_object`: first byte
`(type_num << 4) | (size & 0x0f)`, then the continuation bytes of
`size >> 4`. -/
def packObjectHeader (type_num size : Nat) : Bytes :=
  ((type_num <<< 4) ||| (size % 16)) :: packSizeBytes (size >>> 4)

/-- Model of `pack_object`: record header followed by the independently
compressed content. -/
def pack_object (compress : Bytes → Bytes) (obj_type data : Bytes) :
    Option Bytes :=
  (typeNum obj_type).map fun t =>
    packObjectHeader t data.length ++ compress data

/-- Model of `create_pack`: `PACK` magic, big-endian version 2 and object
count, the objects' records in sorted hash order, and a trailing SHA-1
digest over everything before it.  `none` models `struct` overflow on the
count, a missing object, or an unknown object type. -/
def create_pack (compress decompress : Bytes → Bytes)
    (objects : List Bytes) (S : ObjStore) : Option Bytes :=
  if objects.length < 4294967296 then
    match (sortBytes objects).mapM (fun h =>
        (retrieve_object decompress h S).bind fun td =>
          pack_object compress td.1 td.2) with
    | none => none
    | some recs =>
      let full := asc "PACK" ++ beBytes 4 2 ++ beBytes 4 objects.length ++
        recs.flatten
      some (full ++ sha1Bytes full)
  else none

/-- Substring test (the Python `in` operator on byte strings). -/
def bytesContains (needle : Bytes) : Bytes → Bool
  | [] => needle.isEmpty
  | c :: rest => needle.isPrefixOf (c :: rest) || bytesContains needle rest

/-- The line scan of `get_remote_master_hash`: skip lines starting with
`"00"`, return the first whitespace token of the first remaining line
containing `refs/heads/master`. -/
def scanRefLines : List Bytes → Option Bytes
  | [] => none
  | line :: ls =>
    if line.take 2 = asc "00" then scanRefLines ls
    else if bytesContains (asc "refs/heads/master") line then
      match wsSplit line with
      | [] => none
      | t :: _ => some t
    else scanRefLines ls

/-- Model of `get_remote_master_hash` applied to the HTTP response body:
split on newlines and scan. -/
def get_remote_master_hash (response : Bytes) : Option Bytes :=
  scanRefLines (splitOnByte 10 response)

end RemoteManager

/-- Claim C6 evaluated at a blob of content length 16: the emitted record
header is `[0x30, 0x81]`.  The first byte has its continuation bit clear
although another length byte follows, and the final byte has its
continuation bit set although no byte follows — the loop sets `0x80` on
every trailing byte unconditionally.  This refutes the claim that a set
continuation bit indicates exactly that another length byte follows. -/
theorem c6_varint_continuation_bug :
    RemoteManager.pack_object id (asc "blob") (List.replicate 16 97) =
      some (48 :: 129 :: List.replicate 16 97) ∧
    RemoteManager.packObjectHeader 3 16 = [48, 129] ∧
    48 &&& 128 = 0 ∧ 129 &&& 128 ≠ 0 := by
  refine ⟨by decide, by decide, by decide, by decide⟩

/-- Claim C7: a successful `create_pack` output starts with the 4-byte
magic `PACK`, big-endian version 2, and the big-endian count equal to the
size of the input object set (a duplicate-free list); its body is the
concatenation of the objects' records in sorted hash order; and its last
20 bytes are the SHA-1 digest of every byte preceding them. -/
theorem c7_create_pack_format (compress decompress : Bytes → Bytes)
    (objects : List Bytes) (S : ObjStore) (_hnd : objects.Nodup)
    (out : Bytes)
    (hout : RemoteManager.create_pack compress decompress objects S =
      some out) :
    out.take 4 = asc "PACK" ∧
    pySlice out 4 8 = beBytes 4 2 ∧
    pySlice out 8 12 = beBytes 4 objects.length ∧
    (∃ recs, (sortBytes objects).mapM (fun h =>
        (RemoteManager.retrieve_object decompress h S).bind fun td =>
          RemoteManager.pack_object compress td.1 td.2) = some recs ∧
      out = (asc "PACK" ++ beBytes 4 2 ++ beBytes 4 objects.length ++
        recs.flatten) ++ sha1Bytes (asc "PACK" ++ beBytes 4 2 ++
        beBytes 4 objects.length ++ recs.flatten)) ∧
    out.drop (out.length - 20) = sha1Bytes (out.take (out.length - 20)) := by
  by_cases hlt : objects.length < 4294967296
  · rw [RemoteManager.create_pack, if_pos hlt] at hout
    cases hm : (sortBytes objects).mapM (fun h =>
        (RemoteManager.retrieve_object decompress h S).bind fun td =>
          RemoteManager.pack_object compress td.1 td.2) with
    | none => rw [hm] at hout; simp at hout
    | some recs =>
      rw [hm] at hout
      simp only [Option.some.injEq] at hout
      subst hout
      have hpk : (asc "PACK").length = 4 := by decide
      have hbs : (asc "PACK" ++ beBytes 4 2 ++ beBytes 4 objects.length ++
          recs.flatten) ++ sha1Bytes (asc "PACK" ++ beBytes 4 2 ++
            beBytes 4 objects.length ++ recs.flatten) =
          asc "PACK" ++ (beBytes 4 2 ++ (beBytes 4 objects.length ++
            (recs.flatten ++ sha1Bytes (asc "PACK" ++ beBytes 4 2 ++
              beBytes 4 objects.length ++ recs.flatten)))) := by
        simp [List.append_assoc]
      refine ⟨?_, ?_, ?_, ⟨recs, rfl, rfl⟩, ?_⟩
      · rw [hbs, List.take_left' hpk]
      · rw [hbs, pySlice_after _ 4 8 hpk (by omega)]
        exact pySlice_first _ (beBytes_length 4 2)
      · rw [hbs, pySlice_after _ 8 12 hpk (by omega),
          pySlice_after _ 4 8 (beBytes_length 4 2) (by omega)]
        exact pySlice_first _ (beBytes_length 4 _)
      · have hlen : ((asc "PACK" ++ beBytes 4 2 ++
            beBytes 4 objects.length ++ recs.flatten) ++
            sha1Bytes (asc "PACK" ++ beBytes 4 2 ++
              beBytes 4 objects.length ++ recs.flatten)).length =
            (asc "PACK" ++ beBytes 4 2 ++ beBytes 4 objects.length ++
              recs.flatten).length + 20 := by
          rw [List.length_append, sha1Bytes_length]
        rw [hlen, Nat.add_sub_cancel, List.take_left, List.drop_left]
  · rw [RemoteManager.create_pack, if_neg hlt] at hout
    simp at hout

/-- Concrete one-object store for the C7 witness. -/
def c7Store : ObjStore := [(asc "ha", asc "blob 1" ++ 0 :: asc "x")]

/-- Witness for C7: a pack built from the one-object store above
satisfies the format properties. -/
theorem c7_witness : ∃ out,
    RemoteManager.create_pack id id [asc "ha"] c7Store = some out ∧
    out.take 4 = asc "PACK" ∧
    pySlice out 4 8 = beBytes 4 2 ∧
    pySlice out 8 12 = beBytes 4 1 ∧
    out.drop (out.length - 20) = sha1Bytes (out.take (out.length - 20)) := by
  have hsome : (RemoteManager.create_pack id id [asc "ha"] c7Store).isSome =
      true := by decide
  obtain ⟨out, hout⟩ := Option.isSome_iff_exists.mp hsome
  have h := c7_create_pack_format id id [asc "ha"] c7Store (by decide)
    out hout
  exact ⟨out, hout, h.1, h.2.1, h.2.2.1, h.2.2.2.2⟩

theorem splitOnByte_no_sep {sep : Nat} : ∀ l : Bytes, sep ∉ l →
    splitOnByte sep l = [l] := by
  intro l
  induction l with
  | nil => intro _; rfl
  | cons c rest ih =>
    intro hmem
    have hc : ¬(c = sep) := by
      intro h; exact hmem (by simp [h])
    simp only [splitOnByte, if_neg hc, ih (fun h => hmem (by simp [h]))]

/-- Claim C10: a response whose only line advertises `refs/heads/master`
with a commit hash beginning with the two hex digits `00` is skipped by
the control-line filter, so `get_remote_master_hash` returns `None`
instead of the advertised hash. -/
theorem c10_remote_master_hash_skips_00 (hashBytes : Bytes)
    (h00 : hashBytes.take 2 = asc "00") (hnl : 10 ∉ hashBytes) :
    RemoteManager.get_remote_master_hash
      (hashBytes ++ asc " refs/heads/master") = none := by
  have htail : (10 : Nat) ∉ asc " refs/heads/master" := by decide
  have hline : (10 : Nat) ∉ hashBytes ++ asc " refs/heads/master" := by
    intro hmem
    rcases List.mem_append.mp hmem with h | h
    · exact hnl h
    · exact htail h
  unfold RemoteManager.get_remote_master_hash
  rw [splitOnByte_no_sep _ hline]
  have htake : (hashBytes ++ asc " refs/heads/master").take 2 =
      asc "00" := by
    cases hashBytes with
    | nil => simp [asc] at h00
    | cons a t =>
      cases t with
      | nil => simp [asc, List.take] at h00
      | cons b t2 =>
        have h2 : (a :: b :: t2).take 2 = [a, b] := rfl
        rw [h2] at h00
        rw [show (a :: b :: t2) ++ asc " refs/heads/master" =
          a :: b :: (t2 ++ asc " refs/heads/master") from rfl]
        rw [show (a :: b :: (t2 ++ asc " refs/heads/master")).take 2 =
          [a, b] from rfl]
        exact h00
  simp [RemoteManager.scanRefLines, htake]

/-- Witness for C10 at a concrete advertisement line with hash prefix
`00`. -/
theorem c10_witness :
    RemoteManager.get_remote_master_hash
      (asc "00ab" ++ asc " refs/heads/master") = none :=
  c10_remote_master_hash_skips_00 (asc "00ab") (by decide) (by decide)

/-! ## Object graph traversal (`find_tree_objects`,
`find_commit_objects`) and claims C2 and C3.

The recursive traversal is modelled with an explicit fuel parameter
(`none` = an exception or non-termination); all results are fuel-monotone.
-/

/-- Model of Python `bytes.find(b, start)` with possibly negative start:
index of the first occurrence at or after the (clamped) start, `-1` when
absent. -/
def pyFind (data : Bytes) (t : Nat) (start : Int) : Int :=
  let s : Nat := if start < 0 then ((data.length : Int) + start).toNat
    else start.toNat
  match (data.drop s).findIdx? (fun x => x == t) with
  | none => -1
  | some j => ((s + j : Nat) : Int)

namespace CommitManager

mutual

/-- Model of `find_tree_objects`: start from `{tree_sha1}`, retrieve the
tree data and run the entry scan loop. -/
def findTreeObjects : Nat → (Bytes → Bytes) → ObjStore → Bytes →
    Option (Finset Bytes)
  | 0, _, _, _ => none
  | fuel + 1, dec, S, t =>
    match ObjectStore.retrieve_object dec t S with
    | none => none
    | some td => treeLoop fuel dec S td.2 0 {t}

/-- The `while i < len(tree_data)` loop of `find_tree_objects`: locate
the next space and NUL with `find`, read the 20 hash bytes, add their hex
form, retrieve the object and recurse into trees. -/
def treeLoop : Nat → (Bytes → Bytes) → ObjStore → Bytes → Nat →
    Finset Bytes → Option (Finset Bytes)
  | 0, _, _, _, _, _ => none
  | fuel + 1, dec, S, data, i, objs =>
    if i < data.length then
      let shaStart := (pyFind data 0 (pyFind data 32 (i : Int)) + 1).toNat
      let sha1hex := bytesToHex ((data.drop shaStart).take 20)
      match ObjectStore.retrieve_object dec sha1hex S with
      | none => none
      | some td =>
        if td.1 = asc "tree" then
          match findTreeObjects fuel dec S sha1hex with
          | none => none
          | some sub =>
            treeLoop fuel dec S data (shaStart + 20)
              (insert sha1hex objs ∪ sub)
        else treeLoop fuel dec S data (shaStart + 20) (insert sha1hex objs)
    else some objs

end

/-- The `tree` line extraction of `find_commit_objects`
(`next(line[5:45] for line in lines if line.startswith("tree "))`). -/
def commitTreeHash (data : Bytes) : Option Bytes :=
  ((pySplitLines data).find? (fun l => (asc "tree ").isPrefixOf l)).map
    (fun l => pySlice l 5 45)

/-- The parent extraction of `find_commit_objects`
(`[line[7:47] for line in lines if line.startswith("parent ")]`). -/
def commitParents (data : Bytes) : List Bytes :=
  ((pySplitLines data).filter (fun l => (asc "parent ").isPrefixOf l)).map
    (fun l => pySlice l 7 47)

mutual

/-- Model of `find_commit_objects`: the commit itself, its tree's
closure, and recursively every parent's objects.  `none` models the
assert failure on a non-commit object, a missing `tree` line
(`StopIteration`), a failed retrieval, or fuel exhaustion. -/
def findCommitObjects : Nat → (Bytes → Bytes) → ObjStore → Bytes →
    Option (Finset Bytes)
  | 0, _, _, _ => none
  | fuel + 1, dec, S, c =>
    match ObjectStore.retrieve_object dec c S with
    | none => none
    | some td =>
      if td.1 = asc "commit" then
        match commitTreeHash td.2 with
        | none => none
        | some th =>
          match findTreeObjects fuel dec S th with
          | none => none
          | some treeObjs =>
            parentsLoop fuel dec S (commitParents td.2) (insert c treeObjs)
      else none
  /- The `for parent_hash in parent_hashes` loop. -/

/-- The parent loop of `find_commit_objects`. -/
def parentsLoop : Nat → (Bytes → Bytes) → ObjStore → List Bytes →
    Finset Bytes → Option (Finset Bytes)
  | _, _, _, [], objs => some objs
  | 0, _, _, _ :: _, _ => none
  | fuel + 1, dec, S, p :: ps, objs =>
    match findCommitObjects fuel dec S p with
    | none => none
    | some sub => parentsLoop fuel dec S ps (objs ∪ sub)

end

end CommitManager

/-- Model of `find_missing_objects` (`remote_manager.py`): the local
commit's objects, minus the remote commit's objects when a remote tip is
present (Python truthiness: `None` and the empty string both skip the
subtraction). -/
def RemoteManager.find_missing_objects (fuel : Nat)
    (dec : Bytes → Bytes) (S : ObjStore) (localSha : Bytes)
    (remoteSha : Option Bytes) : Option (Finset Bytes) :=
  match CommitManager.findCommitObjects fuel dec S localSha with
  | none => none
  | some lo =>
    match remoteSha with
    | some r =>
      if r.isEmpty then some lo
      else
        match CommitManager.findCommitObjects fuel dec S r with
        | none => none
        | some ro => some (lo \ ro)
    | none => some lo

/-! ### Specification-side reachability.

`scanFrom` extracts the member hashes a tree's byte encoding lists, using
the same index arithmetic as the code's scan but independently of the
store; `TreeReach`/`CommitReach` are the inductive closures the spec
describes: a tree reaches itself, its members, and anything reachable
through member trees at any depth; a commit reaches itself, its tree's
closure, and anything reachable from a listed parent. -/

/-- The member hashes listed by a tree's data from index `i` on
(fuel-structural; `none` on non-termination of the scan). -/
def scanFrom : Nat → Bytes → Nat → Option (List Bytes)
  | 0, _, _ => none
  | fuel + 1, data, i =>
    if i < data.length then
      let shaStart := (pyFind data 0 (pyFind data 32 (i : Int)) + 1).toNat
      (scanFrom fuel data (shaStart + 20)).map
        (fun ms => bytesToHex ((data.drop shaStart).take 20) :: ms)
    else some []

/-- `m` is listed as a member of the tree object `t`. -/
def TreeMember (dec : Bytes → Bytes) (S : ObjStore) (t m : Bytes) : Prop :=
  ∃ ty data g ms,
    ObjectStore.retrieve_object dec t S = some (ty, data) ∧
    scanFrom g data 0 = some ms ∧ m ∈ ms

/-- The store holds a `tree` object at `m`. -/
def IsTreeObj (dec : Bytes → Bytes) (S : ObjStore) (m : Bytes) : Prop :=
  ∃ d, ObjectStore.retrieve_object dec m S = some (asc "tree", d)

/-- Specification-side tree closure: a tree reaches itself, every listed
member, and every hash reachable through a member that is itself a tree,
at any depth. -/
inductive TreeReach (dec : Bytes → Bytes) (S : ObjStore) :
    Bytes → Bytes → Prop
  | refl (t : Bytes) : TreeReach dec S t t
  | mem (t m : Bytes) : TreeMember dec S t m → TreeReach dec S t m
  | nested (t m h : Bytes) : TreeMember dec S t m → IsTreeObj dec S m →
      TreeReach dec S m h → TreeReach dec S t h

/-- Specification-side commit reachability: the commit itself, the
closure of its `tree` line, and recursively everything reachable from
each listed parent. -/
inductive CommitReach (dec : Bytes → Bytes) (S : ObjStore) :
    Bytes → Bytes → Prop
  | self (c : Bytes) : CommitReach dec S c c
  | tree (c data t h : Bytes) :
      ObjectStore.retrieve_object dec c S = some (asc "commit", data) →
      CommitManager.commitTreeHash data = some t → TreeReach dec S t h →
      CommitReach dec S c h
  | parent (c data p h : Bytes) :
      ObjectStore.retrieve_object dec c S = some (asc "commit", data) →
      p ∈ CommitManager.commitParents data → CommitReach dec S p h →
      CommitReach dec S c h

/-- Raw 20-byte ids of the objects in the concrete traversal store. -/
def c2T1 : Bytes := List.replicate 20 3

/-- Raw id of the nested tree in the concrete traversal store. -/
def c2T2 : Bytes := List.replicate 20 2

/-- Raw id of the blob in the concrete traversal store. -/
def c2B : Bytes := List.replicate 20 1

/-- Concrete store with a commit, a root tree, a nested tree (depth 2)
and a blob, for the C2/C3 witnesses (`decompress = id`). -/
def c2Store : ObjStore :=
  [(asc "cmt1", asc "commit 0" ++ 0 :: (asc "tree " ++ bytesToHex c2T1)),
   (bytesToHex c2T1, asc "tree 0" ++ 0 :: (asc "40000 d" ++ 0 :: c2T2)),
   (bytesToHex c2T2, asc "tree 0" ++ 0 :: (asc "100644 f" ++ 0 :: c2B)),
   (bytesToHex c2B, asc "blob 0" ++ 0 :: asc "x")]

example : (CommitManager.findCommitObjects 10 id c2Store (asc "cmt1")).isSome
    = true := by decide

/-- A hash listed by the scan of `data` from index `i` on. -/
def SufMember (data : Bytes) (i : Nat) (m : Bytes) : Prop :=
  ∃ g ms, scanFrom g data i = some ms ∧ m ∈ ms

theorem treeLoop_scan : ∀ (fuel : Nat) (dec : Bytes → Bytes) (S : ObjStore)
    (data : Bytes) (i : Nat) (objs : Finset Bytes) (R : Finset Bytes),
    CommitManager.treeLoop fuel dec S data i objs = some R →
    ∃ ms, scanFrom fuel data i = some ms := by
  intro fuel
  induction fuel with
  | zero =>
    intro dec S data i objs R h
    simp [CommitManager.treeLoop] at h
  | succ f ih =>
    intro dec S data i objs R h
    simp only [CommitManager.treeLoop] at h
    by_cases hi : i < data.length
    · rw [if_pos hi] at h
      simp only [scanFrom]
      rw [if_pos hi]
      split at h
      · exact absurd h (by simp)
      · split at h
        · split at h
          · exact absurd h (by simp)
          · obtain ⟨ms, hms⟩ := ih dec S data _ _ _ h
            exact ⟨_, by rw [hms]; rfl⟩
        · obtain ⟨ms, hms⟩ := ih dec S data _ _ _ h
          exact ⟨_, by rw [hms]; rfl⟩
    · exact ⟨[], by simp [scanFrom, hi]⟩

theorem treeLoop_acc : ∀ (fuel : Nat) (dec : Bytes → Bytes) (S : ObjStore)
    (data : Bytes) (i : Nat) (objs : Finset Bytes) (R : Finset Bytes),
    CommitManager.treeLoop fuel dec S data i objs = some R → objs ⊆ R := by
  intro fuel
  induction fuel with
  | zero =>
    intro dec S data i objs R h
    simp [CommitManager.treeLoop] at h
  | succ f ih =>
    intro dec S data i objs R h
    simp only [CommitManager.treeLoop] at h
    split at h
    · split at h
      · exact absurd h (by simp)
      · split at h
        · split at h
          · exact absurd h (by simp)
          · refine subset_trans ?_ (ih dec S data _ _ _ h)
            intro x hx
            simp [Finset.mem_union, Finset.mem_insert]
            tauto
        · refine subset_trans ?_ (ih dec S data _ _ _ h)
          intro x hx
          simp [Finset.mem_insert]
          tauto
    · simp only [Option.some.injEq] at h
      subst h
      exact subset_rfl

theorem findTreeObjects_self {fuel : Nat} {dec : Bytes → Bytes}
    {S : ObjStore} {t : Bytes} {T : Finset Bytes}
    (h : CommitManager.findTreeObjects fuel dec S t = some T) : t ∈ T := by
  cases fuel with
  | zero => simp [CommitManager.findTreeObjects] at h
  | succ f =>
    simp only [CommitManager.findTreeObjects] at h
    split at h
    · exact absurd h (by simp)
    · exact treeLoop_acc f _ _ _ _ _ _ h (Finset.mem_singleton_self t)

theorem parentsLoop_acc : ∀ (ps : List Bytes) (fuel : Nat)
    (dec : Bytes → Bytes) (S : ObjStore) (objs R : Finset Bytes),
    CommitManager.parentsLoop fuel dec S ps objs = some R → objs ⊆ R := by
  intro ps
  induction ps with
  | nil =>
    intro fuel dec S objs R h
    cases fuel <;>
      (simp only [CommitManager.parentsLoop, Option.some.injEq] at h;
        subst h; exact subset_rfl)
  | cons p ps ih =>
    intro fuel dec S objs R h
    cases fuel with
    | zero => simp [CommitManager.parentsLoop] at h
    | succ f =>
      simp only [CommitManager.parentsLoop] at h
      split at h
      · exact absurd h (by simp)
      · exact subset_trans Finset.subset_union_left (ih f _ _ _ _ h)

theorem findCommitObjects_self {fuel : Nat} {dec : Bytes → Bytes}
    {S : ObjStore} {c : Bytes} {R : Finset Bytes}
    (h : CommitManager.findCommitObjects fuel dec S c = some R) : c ∈ R := by
  cases fuel with
  | zero => simp [CommitManager.findCommitObjects] at h
  | succ f =>
    simp only [CommitManager.findCommitObjects] at h
    split at h
    · exact absurd h (by simp)
    · split at h
      · split at h
        · exact absurd h (by simp)
        · split at h
          · exact absurd h (by simp)
          · exact parentsLoop_acc _ f _ _ _ _ h (Finset.mem_insert_self c _)
      · exact absurd h (by simp)

theorem scan_mem_loop : ∀ (fl g : Nat) (dec : Bytes → Bytes) (S : ObjStore)
    (data : Bytes) (i : Nat) (objs R : Finset Bytes) (ms : List Bytes),
    CommitManager.treeLoop fl dec S data i objs = some R →
    scanFrom g data i = some ms → ∀ m ∈ ms, m ∈ R := by
  intro fl
  induction fl with
  | zero =>
    intro g dec S data i objs R ms hloop _ m _
    simp [CommitManager.treeLoop] at hloop
  | succ f ih =>
    intro g dec S data i objs R ms hloop hscan m hm
    simp only [CommitManager.treeLoop] at hloop
    split at hloop
    · rename_i hi
      cases g with
      | zero => simp [scanFrom] at hscan
      | succ g2 =>
        simp only [scanFrom] at hscan
        rw [if_pos hi] at hscan
        cases hs2 : scanFrom g2 data
            ((pyFind data 0 (pyFind data 32 (i : Int)) + 1).toNat + 20) with
        | none => rw [hs2] at hscan; simp at hscan
        | some ms2 =>
          rw [hs2] at hscan
          simp only [Option.map_some', Option.some.injEq] at hscan
          subst hscan
          split at hloop
          · exact absurd hloop (by simp)
          · split at hloop
            · split at hloop
              · exact absurd hloop (by simp)
              · rcases List.mem_cons.mp hm with rfl | hm2
                · exact treeLoop_acc _ _ _ _ _ _ _ hloop
                    (Finset.mem_union_left _ (Finset.mem_insert_self _ _))
                · exact ih g2 dec S data _ _ _ _ hloop hs2 m hm2
            · rcases List.mem_cons.mp hm with rfl | hm2
              · exact treeLoop_acc _ _ _ _ _ _ _ hloop
                  (Finset.mem_insert_self _ _)
              · exact ih g2 dec S data _ _ _ _ hloop hs2 m hm2
    · rename_i hi
      cases g with
      | zero => simp [scanFrom] at hscan
      | succ g2 =>
        simp only [scanFrom] at hscan
        rw [if_neg hi] at hscan
        simp only [Option.some.injEq] at hscan
        subst hscan
        simp at hm

theorem scan_tree_sub : ∀ (fl g : Nat) (dec : Bytes → Bytes) (S : ObjStore)
    (data : Bytes) (i : Nat) (objs R : Finset Bytes) (ms : List Bytes)
    (m : Bytes),
    CommitManager.treeLoop fl dec S data i objs = some R →
    scanFrom g data i = some ms → m ∈ ms → IsTreeObj dec S m →
    ∃ fl2 Sub, CommitManager.findTreeObjects fl2 dec S m = some Sub ∧
      Sub ⊆ R := by
  intro fl
  induction fl with
  | zero =>
    intro g dec S data i objs R ms m hloop _ _ _
    simp [CommitManager.treeLoop] at hloop
  | succ f ih =>
    intro g dec S data i objs R ms m hloop hscan hm htreeobj
    simp only [CommitManager.treeLoop] at hloop
    split at hloop
    · rename_i hi
      cases g with
      | zero => simp [scanFrom] at hscan
      | succ g2 =>
        simp only [scanFrom] at hscan
        rw [if_pos hi] at hscan
        cases hs2 : scanFrom g2 data
            ((pyFind data 0 (pyFind data 32 (i : Int)) + 1).toNat + 20) with
        | none => rw [hs2] at hscan; simp at hscan
        | some ms2 =>
          rw [hs2] at hscan
          simp only [Option.map_some', Option.some.injEq] at hscan
          subst hscan
          split at hloop
          · exact absurd hloop (by simp)
          · rename_i td heq
            split at hloop
            · rename_i htd
              split at hloop
              · exact absurd hloop (by simp)
              · rename_i sub heq2
                rcases List.mem_cons.mp hm with rfl | hm2
                · exact ⟨f, sub, heq2, subset_trans
                    Finset.subset_union_right
                    (treeLoop_acc _ _ _ _ _ _ _ hloop)⟩
                · exact ih g2 dec S data _ _ _ _ m hloop hs2 hm2 htreeobj
            · rename_i htd
              rcases List.mem_cons.mp hm with rfl | hm2
              · obtain ⟨d, hd⟩ := htreeobj
                rw [heq] at hd
                simp only [Option.some.injEq] at hd
                have : td.1 = asc "tree" := by rw [hd]
                exact absurd this htd
              · exact ih g2 dec S data _ _ _ _ m hloop hs2 hm2 htreeobj
    · rename_i hi
      cases g with
      | zero => simp [scanFrom] at hscan
      | succ g2 =>
        simp only [scanFrom] at hscan
        rw [if_neg hi] at hscan
        simp only [Option.some.injEq] at hscan
        subst hscan
        simp at hm

theorem tree_sound : ∀ fuel : Nat,
    (∀ (dec : Bytes → Bytes) (S : ObjStore) (t : Bytes) (R : Finset Bytes),
      CommitManager.findTreeObjects fuel dec S t = some R →
      ∀ x ∈ R, TreeReach dec S t x) ∧
    (∀ (dec : Bytes → Bytes) (S : ObjStore) (data : Bytes) (i : Nat)
      (objs R : Finset Bytes),
      CommitManager.treeLoop fuel dec S data i objs = some R →
      ∀ x ∈ R, x ∈ objs ∨ ∃ m, SufMember data i m ∧
        (x = m ∨ (IsTreeObj dec S m ∧ TreeReach dec S m x))) := by
  intro fuel
  induction fuel with
  | zero =>
    constructor
    · intro dec S t R h
      simp [CommitManager.findTreeObjects] at h
    · intro dec S data i objs R h
      simp [CommitManager.treeLoop] at h
  | succ f ih =>
    obtain ⟨ih1, ih2⟩ := ih
    constructor
    · intro dec S t R h x hx
      simp only [CommitManager.findTreeObjects] at h
      split at h
      · exact absurd h (by simp)
      · rename_i td heq
        rcases ih2 dec S td.2 0 {t} R h x hx with hx1 |
          ⟨m, ⟨g, ms, hscan, hm⟩, hrest⟩
        · rw [Finset.mem_singleton] at hx1
          subst hx1
          exact TreeReach.refl x
        · have hmem : TreeMember dec S t m :=
            ⟨td.1, td.2, g, ms, by rw [heq], hscan, hm⟩
          rcases hrest with rfl | ⟨hto, hre⟩
          · exact TreeReach.mem t x hmem
          · exact TreeReach.nested t m x hmem hto hre
    · intro dec S data i objs R h x hx
      simp only [CommitManager.treeLoop] at h
      split at h
      · rename_i hi
        set hex := bytesToHex ((data.drop
          ((pyFind data 0 (pyFind data 32 (i : Int)) + 1).toNat)).take 20)
          with hhex
        split at h
        · exact absurd h (by simp)
        · rename_i td heq
          split at h
          · rename_i htd
            split at h
            · exact absurd h (by simp)
            · rename_i sub heq2
              obtain ⟨msTail, hmsTail⟩ := treeLoop_scan f dec S data _ _ _ h
              have hscanI : scanFrom (f + 1) data i = some (hex :: msTail) := by
                simp only [scanFrom]
                rw [if_pos hi, hmsTail]
                rfl
              have hto : IsTreeObj dec S hex :=
                ⟨td.2, by rw [heq, show td = (asc "tree", td.2) from by
                  rw [← htd]]⟩
              rcases ih2 dec S data _ _ _ h x hx with hx1 |
                ⟨m, ⟨g, ms, hscan, hm⟩, hrest⟩
              · rcases Finset.mem_union.mp hx1 with hx2 | hx2
                · rcases Finset.mem_insert.mp hx2 with rfl | hx3
                  · exact Or.inr ⟨hex, ⟨f + 1, hex :: msTail, hscanI,
                      by simp⟩, Or.inl rfl⟩
                  · exact Or.inl hx3
                · exact Or.inr ⟨hex, ⟨f + 1, hex :: msTail, hscanI,
                    by simp⟩, Or.inr ⟨hto, ih1 dec S hex sub heq2 x hx2⟩⟩
              · refine Or.inr ⟨m, ⟨g + 1, hex :: ms, ?_, by simp [hm]⟩,
                  hrest⟩
                simp only [scanFrom]
                rw [if_pos hi, hscan]
                rfl
          · rename_i htd
            obtain ⟨msTail, hmsTail⟩ := treeLoop_scan f dec S data _ _ _ h
            have hscanI : scanFrom (f + 1) data i = some (hex :: msTail) := by
              simp only [scanFrom]
              rw [if_pos hi, hmsTail]
              rfl
            rcases ih2 dec S data _ _ _ h x hx with hx1 |
              ⟨m, ⟨g, ms, hscan, hm⟩, hrest⟩
            · rcases Finset.mem_insert.mp hx1 with rfl | hx3
              · exact Or.inr ⟨hex, ⟨f + 1, hex :: msTail, hscanI, by simp⟩,
                  Or.inl rfl⟩
              · exact Or.inl hx3
            · refine Or.inr ⟨m, ⟨g + 1, hex :: ms, ?_, by simp [hm]⟩, hrest⟩
              simp only [scanFrom]
              rw [if_pos hi, hscan]
              rfl
      · simp only [Option.some.injEq] at h
        subst h
        exact Or.inl hx

theorem tree_complete {dec : Bytes → Bytes} {S : ObjStore} {t x : Bytes}
    (hr : TreeReach dec S t x) : ∀ (f : Nat) (T : Finset Bytes),
    CommitManager.findTreeObjects f dec S t = some T → x ∈ T := by
  induction hr with
  | refl t =>
    intro f T h
    exact findTreeObjects_self h
  | mem t m hmem =>
    intro f T h
    obtain ⟨ty, data, g, ms, hret, hscan, hm⟩ := hmem
    cases f with
    | zero => simp [CommitManager.findTreeObjects] at h
    | succ f2 =>
      simp only [CommitManager.findTreeObjects] at h
      split at h
      · exact absurd h (by simp)
      · rename_i td heq
        rw [heq] at hret
        simp only [Option.some.injEq] at hret
        have hdata : td.2 = data := by rw [hret]
        rw [hdata] at h
        exact scan_mem_loop f2 g dec S data 0 _ _ _ h hscan m hm
  | nested t m y hmem hto _ ih =>
    intro f T h
    obtain ⟨ty, data, g, ms, hret, hscan, hm⟩ := hmem
    cases f with
    | zero => simp [CommitManager.findTreeObjects] at h
    | succ f2 =>
      simp only [CommitManager.findTreeObjects] at h
      split at h
      · exact absurd h (by simp)
      · rename_i td heq
        rw [heq] at hret
        simp only [Option.some.injEq] at hret
        have hdata : td.2 = data := by rw [hret]
        rw [hdata] at h
        obtain ⟨fl2, Sub, hSub, hsubset⟩ :=
          scan_tree_sub f2 g dec S data 0 _ _ _ m h hscan hm hto
        exact hsubset (ih fl2 Sub hSub)

theorem commit_sound : ∀ fuel : Nat,
    (∀ (dec : Bytes → Bytes) (S : ObjStore) (c : Bytes) (R : Finset Bytes),
      CommitManager.findCommitObjects fuel dec S c = some R →
      ∀ x ∈ R, CommitReach dec S c x) ∧
    (∀ (dec : Bytes → Bytes) (S : ObjStore) (ps : List Bytes)
      (objs R : Finset Bytes),
      CommitManager.parentsLoop fuel dec S ps objs = some R →
      ∀ x ∈ R, x ∈ objs ∨ ∃ p ∈ ps, CommitReach dec S p x) := by
  intro fuel
  induction fuel with
  | zero =>
    constructor
    · intro dec S c R h
      simp [CommitManager.findCommitObjects] at h
    · intro dec S ps objs R h x hx
      cases ps with
      | nil =>
        simp only [CommitManager.parentsLoop, Option.some.injEq] at h
        subst h
        exact Or.inl hx
      | cons p ps => simp [CommitManager.parentsLoop] at h
  | succ f ih =>
    obtain ⟨ih1, ih2⟩ := ih
    constructor
    · intro dec S c R h x hx
      simp only [CommitManager.findCommitObjects] at h
      split at h
      · exact absurd h (by simp)
      · rename_i td heq
        split at h
        · rename_i htd
          split at h
          · exact absurd h (by simp)
          · rename_i th hth
            split at h
            · exact absurd h (by simp)
            · rename_i T hT
              have hret : ObjectStore.retrieve_object dec c S =
                  some (asc "commit", td.2) := by
                rw [heq, show td = (asc "commit", td.2) from by rw [← htd]]
              rcases ih2 dec S _ _ _ h x hx with hx1 | ⟨p, hp, hre⟩
              · rcases Finset.mem_insert.mp hx1 with rfl | hx2
                · exact CommitReach.self x
                · exact CommitReach.tree c td.2 th x hret hth
                    ((tree_sound f).1 dec S th T hT x hx2)
              · exact CommitReach.parent c td.2 p x hret hp hre
        · exact absurd h (by simp)
    · intro dec S ps objs R h x hx
      cases ps with
      | nil =>
        simp only [CommitManager.parentsLoop, Option.some.injEq] at h
        subst h
        exact Or.inl hx
      | cons p ps =>
        simp only [CommitManager.parentsLoop] at h
        split at h
        · exact absurd h (by simp)
        · rename_i sub hsub
          rcases ih2 dec S ps _ _ h x hx with hx1 | ⟨q, hq, hre⟩
          · rcases Finset.mem_union.mp hx1 with hx2 | hx2
            · exact Or.inl hx2
            · exact Or.inr ⟨p, by simp, ih1 dec S p sub hsub x hx2⟩
          · exact Or.inr ⟨q, by simp [hq], hre⟩

theorem parentsLoop_sub : ∀ (ps : List Bytes) (fuel : Nat)
    (dec : Bytes → Bytes) (S : ObjStore) (objs R : Finset Bytes) (p : Bytes),
    CommitManager.parentsLoop fuel dec S ps objs = some R → p ∈ ps →
    ∃ f2 Sub, CommitManager.findCommitObjects f2 dec S p = some Sub ∧
      Sub ⊆ R := by
  intro ps
  induction ps with
  | nil =>
    intro fuel dec S objs R p _ hp
    simp at hp
  | cons q ps ih =>
    intro fuel dec S objs R p h hp
    cases fuel with
    | zero => simp [CommitManager.parentsLoop] at h
    | succ f =>
      simp only [CommitManager.parentsLoop] at h
      split at h
      · exact absurd h (by simp)
      · rename_i sub hsub
        rcases List.mem_cons.mp hp with rfl | hp2
        · exact ⟨f, sub, hsub, subset_trans Finset.subset_union_right
            (parentsLoop_acc ps f dec S _ _ h)⟩
        · exact ih f dec S _ R p h hp2

theorem commit_complete {dec : Bytes → Bytes} {S : ObjStore} {c x : Bytes}
    (hr : CommitReach dec S c x) : ∀ (f : Nat) (R : Finset Bytes),
    CommitManager.findCommitObjects f dec S c = some R → x ∈ R := by
  induction hr with
  | self c =>
    intro f R h
    exact findCommitObjects_self h
  | tree c data t y hret hth htr =>
    intro f R h
    cases f with
    | zero => simp [CommitManager.findCommitObjects] at h
    | succ f2 =>
      simp only [CommitManager.findCommitObjects] at h
      split at h
      · exact absurd h (by simp)
      · rename_i td heq
        rw [heq] at hret
        simp only [Option.some.injEq] at hret
        have hdata : td.2 = data := by rw [hret]
        have hty : td.1 = asc "commit" := by rw [hret]
        split at h
        · rename_i htd
          split at h
          · rename_i hth2
            rw [hdata, hth] at hth2
            exact absurd hth2 (by simp)
          · rename_i th hth2
            rw [hdata, hth] at hth2
            simp only [Option.some.injEq] at hth2
            subst hth2
            split at h
            · exact absurd h (by simp)
            · rename_i T hT
              have hxT : y ∈ T := tree_complete htr f2 T hT
              exact parentsLoop_acc _ f2 dec S _ _ h
                (Finset.mem_insert_of_mem hxT)
        · exact absurd hty (by rename_i htd; exact htd)
  | parent c data p y hret hp hre ih =>
    intro f R h
    cases f with
    | zero => simp [CommitManager.findCommitObjects] at h
    | succ f2 =>
      simp only [CommitManager.findCommitObjects] at h
      split at h
      · exact absurd h (by simp)
      · rename_i td heq
        rw [heq] at hret
        simp only [Option.some.injEq] at hret
        have hdata : td.2 = data := by rw [hret]
        have hty : td.1 = asc "commit" := by rw [hret]
        split at h
        · rename_i htd
          split at h
          · exact absurd h (by simp)
          · rename_i th hth2
            split at h
            · exact absurd h (by simp)
            · rename_i T hT
              have hp2 : p ∈ CommitManager.commitParents td.2 := by
                rw [hdata]
                exact hp
              obtain ⟨f3, Sub, hSub, hsubset⟩ :=
                parentsLoop_sub _ f2 dec S _ R p h hp2
              exact hsubset (ih f3 Sub hSub)
        · exact absurd hty (by rename_i htd; exact htd)

/-- The traversal result characterises reachability exactly (shared
between claims C2 and C3). -/
theorem findCommitObjects_mem_iff {dec : Bytes → Bytes} {S : ObjStore}
    {c : Bytes} {f : Nat} {R : Finset Bytes}
    (h : CommitManager.findCommitObjects f dec S c = some R) :
    ∀ x, x ∈ R ↔ CommitReach dec S c x :=
  fun x => ⟨fun hx => (commit_sound f).1 dec S c R h x hx,
    fun hr => commit_complete hr f R h⟩

/-- Claim C2: whenever `find_commit_objects` completes on a commit hash
(its full object closure resolves), the returned set is exactly the
commit itself, the full closure of its `tree` line (every member hash
and, recursively through nested trees, at any depth), and recursively
everything reachable from each `parent` line — expressed as the inductive
reachability predicate `CommitReach` built from `TreeReach`. -/
theorem c2_find_commit_objects_reachable (dec : Bytes → Bytes)
    (S : ObjStore) (c : Bytes) (f : Nat) (R : Finset Bytes)
    (h : CommitManager.findCommitObjects f dec S c = some R) :
    ∀ x, x ∈ R ↔ CommitReach dec S c x :=
  findCommitObjects_mem_iff h

/-- Witness for C2 on the concrete four-object store (commit → tree →
nested tree → blob). -/
theorem c2_witness : ∃ R,
    CommitManager.findCommitObjects 10 id c2Store (asc "cmt1") = some R ∧
    (∀ x, x ∈ R ↔ CommitReach id c2Store (asc "cmt1") x) := by
  have hsome : (CommitManager.findCommitObjects 10 id c2Store
      (asc "cmt1")).isSome = true := by decide
  obtain ⟨R, hR⟩ := Option.isSome_iff_exists.mp hsome
  exact ⟨R, hR, c2_find_commit_objects_reachable id c2Store _ 10 R hR⟩

/-- Claim C3: `find_missing_objects` returns exactly
`reachable(local) − reachable(remote)`; when the remote tip is absent it
returns all of `reachable(local)`. -/
theorem c3_find_missing_objects (dec : Bytes → Bytes) (S : ObjStore)
    (L : Bytes) (remote : Option Bytes) (f : Nat) (RL : Finset Bytes)
    (hL : CommitManager.findCommitObjects f dec S L = some RL) :
    (remote = none →
      RemoteManager.find_missing_objects f dec S L remote = some RL ∧
      ∀ x, x ∈ RL ↔ CommitReach dec S L x) ∧
    (∀ r RR, remote = some r → r.isEmpty = false →
      CommitManager.findCommitObjects f dec S r = some RR →
      RemoteManager.find_missing_objects f dec S L remote =
        some (RL \ RR) ∧
      ∀ x, x ∈ RL \ RR ↔
        (CommitReach dec S L x ∧ ¬CommitReach dec S r x)) := by
  constructor
  · intro hrem
    subst hrem
    constructor
    · simp only [RemoteManager.find_missing_objects, hL]
    · exact findCommitObjects_mem_iff hL
  · intro r RR hrem hre hRR
    subst hrem
    constructor
    · simp only [RemoteManager.find_missing_objects, hL, hre, hRR,
        Bool.false_eq_true, if_false]
    · intro x
      rw [Finset.mem_sdiff, findCommitObjects_mem_iff hL x,
        findCommitObjects_mem_iff hRR x]

/-- Witness for C3 on the concrete store: an absent remote tip returns
the whole local closure, and an identical remote tip returns the empty
difference. -/
theorem c3_witness : ∃ RL,
    CommitManager.findCommitObjects 10 id c2Store (asc "cmt1") = some RL ∧
    RemoteManager.find_missing_objects 10 id c2Store (asc "cmt1") none =
      some RL ∧
    RemoteManager.find_missing_objects 10 id c2Store (asc "cmt1")
      (some (asc "cmt1")) = some (RL \ RL) := by
  have hsome : (CommitManager.findCommitObjects 10 id c2Store
      (asc "cmt1")).isSome = true := by decide
  obtain ⟨RL, hRL⟩ := Option.isSome_iff_exists.mp hsome
  have h := c3_find_missing_objects id c2Store (asc "cmt1") none 10 RL hRL
  have h2 := c3_find_missing_objects id c2Store (asc "cmt1")
    (some (asc "cmt1")) 10 RL hRL
  exact ⟨RL, hRL, (h.1 rfl).1,
    (h2.2 (asc "cmt1") RL rfl (by decide) hRL).1⟩

end Git
